import Mathlib

/-!
# Verification of the QFX converter

A shallow embedding of `qfx_converter.py` (and the shared extraction logic of
`verify_conversion.py`).  Documents are lists of characters; the Python regular
expressions used by the program are fixed, flat patterns, embedded here as
deterministic scanners (each pattern is anchored on literal text and greedy
runs that never need backtracking, so the scanners are exact models of the
regex semantics).  Python floats are modelled as exact signed decimal values
(sign bit, mantissa, decimal exponent); IEEE-754 binary rounding is not
modelled, and the properties proved below are invariant under it, because the
program only parses a decimal literal, negates it (an exact operation on
floats) and re-serialises it (a value-preserving operation).  The float
parser models the decimal-literal grammar of `float(str)` (optional
whitespace, sign, digits, fraction, exponent); the special spellings
`inf`/`nan` and underscore separators, which never occur in amount fields,
are not modelled.
-/

namespace Qfx

/-- `leads p s` : the list `p` is an initial run of `s` (a computable
"starts with" test). -/
def leads : List Char → List Char → Bool
  | [], _ => true
  | _ :: _, [] => false
  | a :: p, b :: s => a == b && leads p s

/-- `hasRun p s` : `p` occurs as a contiguous run somewhere in `s`. -/
def hasRun (p : List Char) : List Char → Bool
  | [] => leads p []
  | c :: s => leads p (c :: s) || hasRun p s

/-- Whitespace characters stripped by Python's `float(str)`. -/
def isWs (c : Char) : Bool :=
  c = ' ' || c = '\t' || c = '\n' || c = '\r' || c = '\x0b' || c = '\x0c'

/-- Strip leading and trailing whitespace. -/
def trim (s : List Char) : List Char :=
  ((s.dropWhile isWs).reverse.dropWhile isWs).reverse

/-- Decimal value of a digit run. -/
def parseNat (ds : List Char) : ℕ :=
  ds.foldl (fun a c => 10 * a + (c.toNat - 48)) 0

/-- A Python float, modelled as an exact signed decimal value: the value is
`(-1)^neg * mant * 10^exp`.  The sign bit is kept separately from the
magnitude so that the signed zeroes `0.0` and `-0.0` are distinguished,
as they are by `repr` on floats. -/
structure PyFloat where
  neg : Bool
  mant : ℕ
  exp : ℤ
deriving DecidableEq

/-- `10^e` as a rational, for an integer exponent. -/
def pow10 (e : ℤ) : ℚ :=
  if 0 ≤ e then ((10 ^ e.toNat : ℕ) : ℚ) else 1 / ((10 ^ (-e).toNat : ℕ) : ℚ)

/-- The rational value of a modelled float.  Note `-0.0` and `0.0` have the
same value, exactly as Python's `==` on floats. -/
def PyFloat.val (x : PyFloat) : ℚ :=
  (if x.neg then -1 else 1) * (x.mant : ℚ) * pow10 x.exp

/-- Unary negation of a float: flips the sign bit (exact, as in IEEE). -/
def pyNeg (x : PyFloat) : PyFloat := ⟨!x.neg, x.mant, x.exp⟩

/-- Strip an optional leading sign, returning whether it was a minus. -/
def stripSign : List Char → Bool × List Char
  | [] => (false, [])
  | c :: r => if c = '-' then (true, r) else if c = '+' then (false, r) else (false, c :: r)

/-- Parse the exponent digits (after `e`/`E`): optional sign then a
non-empty digit run. -/
def parseExpNum (r : List Char) : Option (ℤ × List Char) :=
  let p := stripSign r
  let ds := p.2.takeWhile Char.isDigit
  if ds.isEmpty then none
  else some ((if p.1 then -(parseNat ds : ℤ) else (parseNat ds : ℤ)), p.2.drop ds.length)

/-- Parse an optional exponent suffix. -/
def parseExpTail : List Char → Option (ℤ × List Char)
  | [] => some (0, [])
  | c :: r => if c = 'e' ∨ c = 'E' then parseExpNum r else some (0, c :: r)

/-- Split an optional fraction `.digits` off the front. -/
def fracSplit : List Char → List Char × List Char
  | [] => ([], [])
  | c :: r =>
    if c = '.' then (r.takeWhile Char.isDigit, r.drop (r.takeWhile Char.isDigit).length)
    else ([], c :: r)

/-- The stage of `float(str)` parsing after the sign: digits and/or a
fraction, then an optional exponent, then nothing. -/
def pyParseAfter (sg : Bool × List Char) : Option PyFloat :=
  let ip := sg.2.takeWhile Char.isDigit
  let t2 := sg.2.drop ip.length
  let fr := fracSplit t2
  if ip.isEmpty && fr.1.isEmpty then none
  else
    match parseExpTail fr.2 with
    | some (ex, t4) =>
      if t4.isEmpty then some ⟨sg.1, parseNat (ip ++ fr.1), ex - fr.1.length⟩
      else none
    | none => none

/-- The decimal-literal grammar of Python's `float(str)`:
whitespace, optional sign, digits and/or a fraction, optional exponent. -/
def pyParse (s : List Char) : Option PyFloat :=
  pyParseAfter (stripSign (trim s))

/-- The character of a decimal digit. -/
def digitChar (d : ℕ) : Char := Char.ofNat (48 + d)

/-- Digits of `n`, least significant first (`fuel ≥ n` suffices). -/
def natDigsRevF : ℕ → ℕ → List Char
  | _, 0 => []
  | 0, _ + 1 => []
  | f + 1, n + 1 => digitChar ((n + 1) % 10) :: natDigsRevF f ((n + 1) / 10)

/-- Decimal digits of `n`, most significant first; `['0']` for zero. -/
def natDigs (n : ℕ) : List Char := if n = 0 then ['0'] else (natDigsRevF n n).reverse

/-- Strip trailing decimal zeroes of a mantissa, moving them into the
exponent (`fuel ≥ mant` suffices). -/
def stripZF : ℕ → ℕ → ℤ → ℕ × ℤ
  | 0, m, e => (m, e)
  | f + 1, m, e => if m % 10 = 0 ∧ m ≠ 0 then stripZF f (m / 10) (e + 1) else (m, e)

/-- Exponent digits of the scientific form, padded to two digits as Python
prints them (`1e-05`, `1e+16`). -/
def sciDigs (de : ℤ) : List Char :=
  let ds := natDigs de.natAbs
  if ds.length = 1 then '0' :: ds else ds

/-- `repr`/`str` of a modelled float: minimal decimal digits, positional
notation while the decimal exponent lies in `[-4, 16)`, scientific notation
outside that range, always at least one fractional digit in positional
form — the presentation CPython's float `repr` uses. -/
def pyRepr (x : PyFloat) : List Char :=
  let p := stripZF x.mant x.mant x.exp
  let m := p.1
  let e := p.2
  let sgn : List Char := if x.neg then ['-'] else []
  if m = 0 then sgn ++ ('0' :: '.' :: ['0'])
  else
    let ds := natDigs m
    let de : ℤ := (ds.length : ℤ) + e - 1
    if -4 ≤ de ∧ de < 16 then
      if 0 ≤ e then sgn ++ ds ++ List.replicate e.toNat '0' ++ ('.' :: ['0'])
      else if (-e).toNat < ds.length then
        sgn ++ ds.take (ds.length - (-e).toNat) ++ '.' :: ds.drop (ds.length - (-e).toNat)
      else sgn ++ '0' :: '.' :: (List.replicate ((-e).toNat - ds.length) '0' ++ ds)
    else
      sgn ++ ds.take 1 ++ (if ds.length = 1 then [] else '.' :: ds.drop 1)
        ++ 'e' :: (if de < 0 then '-' else '+') :: sciDigs de

/-! ## Pattern scanners

Each Python regex of the program is embedded as a scanner over `List Char`.
Scanning is fuelled (one unit per position) so that every definition is
structurally recursive and evaluates inside the kernel; `fuel ≥ length`
always suffices and the wrappers pass exactly that. -/

/-- Generic leftmost search: try `hf` at each suffix, return its first hit
(the model of `re.search`). -/
def scanFirst (hf : List Char → Option α) : ℕ → List Char → Option α
  | _, [] => none
  | 0, _ :: _ => none
  | f + 1, c :: s =>
    match hf (c :: s) with
    | some a => some a
    | none => scanFirst hf f s

/-- Anchored match of `openT (\d+) closeT` : the digit group if the pattern
matches at the head of `s`.  The greedy digit run never backtracks because
`closeT` starts with `<`, which is not a digit. -/
def tagDigitsHere (openT closeT : List Char) (s : List Char) : Option (List Char) :=
  if leads openT s then
    let r := s.drop openT.length
    let d := r.takeWhile Char.isDigit
    if (!d.isEmpty) && leads closeT (r.drop d.length) then some d else none
  else none

/-- `re.search(openT + digits + closeT, s)`, returning the digit group. -/
def searchTag (openT closeT : List Char) (s : List Char) : Option (List Char) :=
  scanFirst (tagDigitsHere openT closeT) s.length s

/-- Anchored match of `openT (\d{8})\d+\.?\d* closeT` : the 8-digit date
group if the timestamp pattern matches at the head of `s`.  The greedy
pieces never backtrack because `closeT` starts with `<`, which is neither a
digit nor a dot. -/
def dtHere (openT closeT : List Char) (s : List Char) : Option (List Char) :=
  if leads openT s then
    let r := s.drop openT.length
    let d := r.takeWhile Char.isDigit
    if 9 ≤ d.length then
      let r2 := r.drop d.length
      match r2 with
      | '.' :: r3 => if leads closeT (r3.dropWhile Char.isDigit) then some (d.take 8) else none
      | _ => if leads closeT r2 then some (d.take 8) else none
    else none
  else none

/-- First match of the timestamp pattern (model of `re.search`). -/
def searchDt (openT closeT : List Char) (s : List Char) : Option (List Char) :=
  scanFirst (dtHere openT closeT) s.length s

/-- Anchored match of `<TRNAMT>([^<]+)</TRNAMT>` : the enclosed text and
the rest of the input after the close tag.  The greedy `[^<]+` never
backtracks because the close tag starts with `<`. -/
def amtHere (s : List Char) : Option (List Char × List Char) :=
  if leads ("<TRNAMT>".toList) s then
    if (!((s.drop 8).takeWhile (fun c => c != '<')).isEmpty) &&
        leads ("</TRNAMT>".toList) ((s.drop 8).dropWhile (fun c => c != '<')) then
      some ((s.drop 8).takeWhile (fun c => c != '<'),
        ((s.drop 8).dropWhile (fun c => c != '<')).drop 9)
    else none
  else none

/-- `re.findall(r..TRNAMT.., s)` : the enclosed texts of all amount fields,
leftmost and non-overlapping, in document order. -/
def findAmtsGo : ℕ → List Char → List (List Char)
  | _, [] => []
  | 0, _ :: _ => []
  | f + 1, c :: s =>
    match amtHere (c :: s) with
    | some (body, rest) => body :: findAmtsGo f rest
    | none => findAmtsGo f s

/-- All amount-field texts of a document. -/
def findAmts (s : List Char) : List (List Char) := findAmtsGo s.length s

/-- `re.sub` with a literal pattern `p` and literal replacement `r`:
leftmost, non-overlapping, all occurrences. -/
def subLitGo (p r : List Char) : ℕ → List Char → List Char
  | _, [] => []
  | 0, s => s
  | f + 1, c :: s =>
    if leads p (c :: s) then r ++ subLitGo p r f (s.drop (p.length - 1))
    else c :: subLitGo p r f s

/-- Replace every occurrence of the literal `p` by `r`. -/
def subLit (p r : List Char) (s : List Char) : List Char := subLitGo p r s.length s

/-- The replacement function `reverse_amount` of `convert_qfx`: parse the
matched amount text as a float, negate it, and re-serialise the whole field.
`none` models the `ValueError` that `float` raises on unparseable text. -/
def reverse_amount (body : List Char) : Option (List Char) :=
  (pyParse body).map (fun x => ("<TRNAMT>".toList) ++ pyRepr (pyNeg x) ++ ("</TRNAMT>".toList))

/-- `re.sub(r..TRNAMT.., reverse_amount, s)` : rewrite every amount field,
failing if any amount text does not parse. -/
def subAmtGo : ℕ → List Char → Option (List Char)
  | _, [] => some []
  | 0, _ :: _ => none
  | f + 1, c :: s =>
    match amtHere (c :: s) with
    | some (body, rest) =>
      match reverse_amount body with
      | some out => (subAmtGo f rest).map (fun t => out ++ t)
      | none => none
    | none => (subAmtGo f s).map (fun t => c :: t)

/-- Sign-reverse every amount field of a document. -/
def subAmt (s : List Char) : Option (List Char) := subAmtGo s.length s

/-- Count the non-overlapping occurrences of the literal `p`
(`len(re.findall(p, s))`). -/
def countLitGo (p : List Char) : ℕ → List Char → ℕ
  | _, [] => 0
  | 0, _ :: _ => 0
  | f + 1, c :: s =>
    if leads p (c :: s) then 1 + countLitGo p f (s.drop (p.length - 1))
    else countLitGo p f s

/-- Number of occurrences of the literal `p` in `s`. -/
def countLit (p : List Char) (s : List Char) : ℕ := countLitGo p s.length s

/-! ## The program -/

/-- `extract_date_range`: first `DTSTART` and `DTEND` timestamp matches,
each reduced to its 8-digit date group; `none` models the `ValueError`
raised when either is absent. -/
def extract_date_range (s : List Char) : Option (List Char × List Char) :=
  match searchDt ("<DTSTART>".toList) ("</DTSTART>".toList) s,
        searchDt ("<DTEND>".toList) ("</DTEND>".toList) s with
  | some a, some b => some (a, b)
  | _, _ => none

/-- Parse every amount text, failing fast on the first unparseable one
(the semantics of the Python list comprehension over `float`). -/
def parseAll : List (List Char) → Option (List PyFloat)
  | [] => some []
  | c :: r =>
    match pyParse c with
    | some x => (parseAll r).map (fun t => x :: t)
    | none => none

/-- The extracted summary of a document (`extract_key_elements`). -/
structure KeyElements where
  fid : List Char
  intuBid : List Char
  amounts : List PyFloat
  transaction_count : ℕ
deriving DecidableEq

/-- `extract_key_elements`: FID and INTU.BID digit groups (with the
`"Not found"` sentinel), parsed amounts, and the `<STMTTRN>` count.
`none` models the `ValueError` raised on an unparseable amount. -/
def extract_key_elements (s : List Char) : Option KeyElements :=
  let fid := (searchTag ("<FID>".toList) ("</FID>".toList) s).getD ("Not found".toList)
  let intu := (searchTag ("<INTU.BID>".toList) ("</INTU.BID>".toList) s).getD ("Not found".toList)
  match parseAll (findAmts s) with
  | some amts => some ⟨fid, intu, amts, countLit ("<STMTTRN>".toList) s⟩
  | none => none

/-- The four boolean checks of `verify_conversion` (lines 73-84):
FID changed, INTU.BID changed, transaction count unchanged, and signs
reversed over the zipped amount lists (skipped, hence `true`, when either
list is empty). -/
def verification_checks (o c : List Char) : Option (Bool × Bool × Bool × Bool) :=
  match extract_key_elements o, extract_key_elements c with
  | some oe, some ce =>
    let fid_changed := decide (oe.fid ≠ ce.fid)
    let intu_changed := decide (oe.intuBid ≠ ce.intuBid)
    let count_same := decide (oe.transaction_count = ce.transaction_count)
    let signs_reversed :=
      if (!oe.amounts.isEmpty) && (!ce.amounts.isEmpty) then
        (oe.amounts.zip ce.amounts).all (fun q => decide (|q.1.val + q.2.val| ≤ 1 / 100))
      else true
    some (fid_changed, intu_changed, count_same, signs_reversed)
  | _, _ => none

/-- `verify_conversion`: the overall success flag, the conjunction of the
four checks. -/
def verify_conversion (o c : List Char) : Option Bool :=
  (verification_checks o c).map (fun q => q.1 && q.2.1 && q.2.2.1 && q.2.2.2)

/-- The four checks of the standalone script `verify_conversion.py`
(lines 84-101).  The extraction is the same `extract_key_elements`
(both files carry an identical copy), but the amount lists are sliced to
their first five elements (`[:5]`) *before* the sign loop, so the sign
check covers only the first five pairs; there is also no emptiness guard
(a `zip` over an empty slice leaves the flag `True`). -/
def script_checks (o c : List Char) : Option (Bool × Bool × Bool × Bool) :=
  match extract_key_elements o, extract_key_elements c with
  | some oe, some ce =>
    let fid_changed := decide (oe.fid ≠ ce.fid)
    let intu_changed := decide (oe.intuBid ≠ ce.intuBid)
    let count_same := decide (oe.transaction_count = ce.transaction_count)
    let signs_reversed :=
      ((oe.amounts.take 5).zip (ce.amounts.take 5)).all
        (fun q => decide (|q.1.val + q.2.val| ≤ 1 / 100))
    some (fid_changed, intu_changed, count_same, signs_reversed)
  | _, _ => none

/-- The `all_good` flag of the standalone script (lines 97-102): the
conjunction of its four checks. -/
def verify_script (o c : List Char) : Option Bool :=
  (script_checks o c).map (fun q => q.1 && q.2.1 && q.2.2.1 && q.2.2.2)

/-- `convert_qfx`: remap `FID` and `INTU.BID` from 12139 to 10898, then
reverse the sign of every amount field. -/
def convert_qfx (s : List Char) : Option (List Char) :=
  let s1 := subLit ("<FID>12139</FID>".toList) ("<FID>10898</FID>".toList) s
  let s2 := subLit ("<INTU.BID>12139</INTU.BID>".toList) ("<INTU.BID>10898</INTU.BID>".toList) s1
  subAmt s2

/-- The timestamp-field shape that claim C5 and the spec describe: the tag,
an 8-digit date, then *optional* further time digits and an optional
fraction, then the close tag.  (The code's own pattern `dtHere` instead
requires at least one digit after the date.) -/
def specTsHere (openT closeT : List Char) (s : List Char) : Bool :=
  leads openT s &&
    (let r := s.drop openT.length
     let d := r.takeWhile Char.isDigit
     decide (8 ≤ d.length) &&
       (match r.drop d.length with
        | '.' :: r3 => leads closeT (r3.dropWhile Char.isDigit)
        | r2 => leads closeT r2))

/-- The document contains a timestamp field of the spec's shape. -/
def specTsSome (openT closeT : List Char) (s : List Char) : Bool :=
  (List.range (s.length + 1)).any (fun i => specTsHere openT closeT (s.drop i))

/-! ## Segment view of a document

Every document splits uniquely as a head without `<` followed by segments,
each a `<` and a run without `<`.  Every pattern of the program is anchored
on `<`, so the scanners act segmentwise; the proofs below establish that
correspondence and reason about conversion segmentwise. -/

/-- Reassemble segments: each contributes a `<` and its text. -/
def untokT : List (List Char) → List Char
  | [] => []
  | g :: r => '<' :: (g ++ untokT r)

/-- All segments are free of `<`. -/
def segsOk (segs : List (List Char)) : Prop := ∀ g ∈ segs, ∀ c ∈ g, c ≠ '<'

/-- Segment text of the amount open tag `<TRNAMT>`. -/
def tagA : List Char := "TRNAMT>".toList

/-- Segment text of the amount close tag `</TRNAMT>`. -/
def tagAc : List Char := "/TRNAMT>".toList

/-- Segment text of the matched FID field. -/
def fidA : List Char := "FID>12139".toList

/-- Segment text of the rewritten FID field. -/
def fidA2 : List Char := "FID>10898".toList

/-- Segment text of the FID close tag. -/
def fidAc : List Char := "/FID>".toList

/-- Segment text of the matched INTU.BID field. -/
def intuA : List Char := "INTU.BID>12139".toList

/-- Segment text of the rewritten INTU.BID field. -/
def intuA2 : List Char := "INTU.BID>10898".toList

/-- Segment text of the INTU.BID close tag. -/
def intuAc : List Char := "/INTU.BID>".toList

/-- Segment text of the transaction marker `<STMTTRN>`. -/
def stA : List Char := "STMTTRN>".toList

/-- Does the next segment (if any) start with `t`? -/
def nextLeads (t : List Char) : List (List Char) → Bool
  | g :: _ => leads t g
  | [] => false

/-- A literal field pattern `<pa<pb` matches at this segment. -/
def litSegHit (pa pb : List Char) (g : List Char) (next : List (List Char)) : Bool :=
  decide (g = pa) && nextLeads pb next

/-- Segmentwise action of the literal substitution `<pa<pb ↦ <ra<pb`. -/
def mapLitSegs (pa pb ra : List Char) : List (List Char) → List (List Char)
  | [] => []
  | g :: rest =>
    (if litSegHit pa pb g rest then ra else g) :: mapLitSegs pa pb ra rest

/-- An amount field matches at this segment: open tag, non-empty body,
close tag leading the next segment. -/
def amtSegHit (g : List Char) (next : List (List Char)) : Bool :=
  leads tagA g && (!(g.drop 7).isEmpty) && nextLeads tagAc next

/-- Segmentwise action of the amount rewrite. -/
def mapAmtSegs : List (List Char) → Option (List (List Char))
  | [] => some []
  | g :: rest =>
    if amtSegHit g rest then
      match pyParse (g.drop 7) with
      | some x => (mapAmtSegs rest).map (fun t => (tagA ++ pyRepr (pyNeg x)) :: t)
      | none => none
    else (mapAmtSegs rest).map (fun t => g :: t)

/-- Segmentwise amount-field texts (the segment view of `findAmts`). -/
def amtContentsSegs : List (List Char) → List (List Char)
  | [] => []
  | g :: rest =>
    if amtSegHit g rest then (g.drop 7) :: amtContentsSegs rest else amtContentsSegs rest

/-- Segmentwise occurrence count of an open-only tag `<pa`. -/
def countSegs (pa : List Char) : List (List Char) → ℕ
  | [] => 0
  | g :: rest => (if leads pa g then 1 else 0) + countSegs pa rest

/-- Segmentwise action of the whole conversion: remap the two matched
institution fields and rewrite every amount field. -/
def convSegs : List (List Char) → Option (List (List Char))
  | [] => some []
  | g :: rest =>
    if litSegHit fidA fidAc g rest then (convSegs rest).map (fidA2 :: ·)
    else if litSegHit intuA intuAc g rest then (convSegs rest).map (intuA2 :: ·)
    else if amtSegHit g rest then
      match pyParse (g.drop 7) with
      | some x => (convSegs rest).map ((tagA ++ pyRepr (pyNeg x)) :: ·)
      | none => none
    else (convSegs rest).map (g :: ·)

/-! ## The frame relation

`Frame s t` : `t` is obtained from `s` by copying it byte for byte except
inside disjoint spans, each of which is a matched institution field
holding 12139 rewritten to 10898, or a complete `<TRNAMT>` amount field
whose enclosed text is rewritten to the serialisation of its negated
value (the tags themselves carried unchanged inside the span). -/

/-- The rewritten spans of claim C2.  Each span is a full matched field,
tags included, so a digit run or an institution value outside one of the
three matched field shapes can never lie inside a span. -/
inductive IsSpan : List Char → List Char → Prop
  | fid : IsSpan ("<FID>12139</FID>".toList) ("<FID>10898</FID>".toList)
  | intu : IsSpan ("<INTU.BID>12139</INTU.BID>".toList) ("<INTU.BID>10898</INTU.BID>".toList)
  | amt (t : List Char) (x : PyFloat) : t ≠ [] → (∀ c ∈ t, c ≠ '<') → pyParse t = some x →
      IsSpan ("<TRNAMT>".toList ++ t ++ "</TRNAMT>".toList)
        ("<TRNAMT>".toList ++ pyRepr (pyNeg x) ++ "</TRNAMT>".toList)

/-- Byte-for-byte copy outside substituted spans. -/
inductive Frame : List Char → List Char → Prop
  | nil : Frame [] []
  | copy (c : Char) (s t : List Char) : Frame s t → Frame (c :: s) (c :: t)
  | span (m r s t : List Char) : IsSpan m r → Frame s t → Frame (m ++ s) (r ++ t)

/-! ## Basic lemmas about the scanners -/

theorem subLitGo_id (p r : List Char) :
    ∀ (f : ℕ) (s : List Char), s.length ≤ f → hasRun p s = false → subLitGo p r f s = s := by
  intro f
  induction f with
  | zero =>
    intro s hl _
    have : s = [] := List.length_eq_zero.mp (Nat.le_zero.mp hl)
    subst this; rfl
  | succ f ih =>
    intro s hl hr
    cases s with
    | nil => rfl
    | cons c s =>
      rw [hasRun] at hr
      simp only [Bool.or_eq_false_iff] at hr
      rw [subLitGo, hr.1, if_neg (by simp)]
      rw [ih s (by simpa using Nat.lt_succ_iff.mp (Nat.lt_of_lt_of_le (Nat.lt_succ_self _) hl)) hr.2]

theorem subAmtGo_id :
    ∀ (f : ℕ) (s : List Char), s.length ≤ f → findAmtsGo f s = [] → subAmtGo f s = some s := by
  intro f
  induction f with
  | zero =>
    intro s hl _
    have : s = [] := List.length_eq_zero.mp (Nat.le_zero.mp hl)
    subst this; rfl
  | succ f ih =>
    intro s hl hfa
    cases s with
    | nil => rfl
    | cons c s =>
      rw [findAmtsGo] at hfa
      rw [subAmtGo]
      cases h : amtHere (c :: s) with
      | some q => rw [h] at hfa; simp at hfa
      | none =>
        rw [h] at hfa
        rw [ih s (Nat.succ_le_succ_iff.mp hl) hfa]
        rfl

/-! ## List and character helpers -/

theorem leads_eq_true_iff (p : List Char) : ∀ s, leads p s = true ↔ ∃ t, s = p ++ t := by
  induction p with
  | nil => intro s; simp [leads]
  | cons a p ih =>
    intro s
    cases s with
    | nil => simp [leads]
    | cons b s =>
      rw [leads, Bool.and_eq_true, beq_iff_eq, ih s]
      constructor
      · rintro ⟨rfl, t, rfl⟩; exact ⟨t, rfl⟩
      · rintro ⟨t, ht⟩
        injection ht with h1 h2
        exact ⟨h1.symm ▸ rfl, t, h2⟩

theorem leads_self_app (p t : List Char) : leads p (p ++ t) = true :=
  (leads_eq_true_iff p _).mpr ⟨t, rfl⟩

theorem leads_take_drop (p s : List Char) (h : leads p s = true) : s = p ++ s.drop p.length := by
  obtain ⟨t, rfl⟩ := (leads_eq_true_iff p s).mp h
  simp

theorem leads_head {a b : Char} {p s : List Char} (h : leads (a :: p) (b :: s) = true) :
    a = b := by
  rw [leads, Bool.and_eq_true, beq_iff_eq] at h
  exact h.1

theorem leads_head_ne {a b : Char} {p s : List Char} (h : a ≠ b) :
    leads (a :: p) (b :: s) = false := by
  rw [leads]
  simp [h]

theorem leads_seg (p : List Char) (hp : ∀ c ∈ p, c ≠ '<') :
    ∀ (g u : List Char), (∀ c ∈ g, c ≠ '<') → (u = [] ∨ ∃ v, u = '<' :: v) →
      leads p (g ++ u) = leads p g := by
  induction p with
  | nil => intro g u _ _; simp [leads]
  | cons a p ih =>
    intro g u hg hu
    cases g with
    | nil =>
      simp only [List.nil_append]
      rcases hu with rfl | ⟨v, rfl⟩
      · rfl
      · rw [leads]
        exact leads_head_ne (hp a (by simp))
    | cons b g =>
      simp only [List.cons_append]
      rw [leads, leads]
      rw [ih (fun c hc => hp c (by simp [hc])) g u (fun c hc => hg c (by simp [hc])) hu]

theorem takeWhileAppAll (p : Char → Bool) (a : List Char) :
    ∀ b, (∀ c ∈ a, p c = true) → (a ++ b).takeWhile p = a ++ b.takeWhile p := by
  induction a with
  | nil => intro b _; rfl
  | cons x a ih =>
    intro b ha
    simp only [List.cons_append, List.takeWhile_cons]
    rw [ha x (by simp), ih b (fun c hc => ha c (by simp [hc]))]
    simp

theorem dropWhileAppAll (p : Char → Bool) (a : List Char) :
    ∀ b, (∀ c ∈ a, p c = true) → (a ++ b).dropWhile p = b.dropWhile p := by
  induction a with
  | nil => intro b _; rfl
  | cons x a ih =>
    intro b ha
    simp only [List.cons_append, List.dropWhile_cons]
    rw [ha x (by simp)]
    exact ih b (fun c hc => ha c (by simp [hc]))

theorem takeWhileAllSelf (p : Char → Bool) (a : List Char) (ha : ∀ c ∈ a, p c = true) :
    a.takeWhile p = a := by
  have := takeWhileAppAll p a [] ha
  simpa using this

theorem takeWhileNilOfHead (p : Char → Bool) (b : List Char)
    (hb : b = [] ∨ ∃ c v, b = c :: v ∧ p c = false) : b.takeWhile p = [] := by
  rcases hb with rfl | ⟨c, v, rfl, hc⟩
  · rfl
  · simp [List.takeWhile_cons, hc]

theorem ne_of_isDigit_of_not {c d : Char} (h : c.isDigit = true) (hd : d.isDigit = false) :
    c ≠ d := by
  intro e
  subst e
  rw [h] at hd
  cases hd

theorem isWs_eq_false_of_isDigit {c : Char} (h : c.isDigit = true) : isWs c = false := by
  cases hw : isWs c
  · rfl
  · exfalso
    unfold isWs at hw
    simp only [Bool.or_eq_true, decide_eq_true_eq] at hw
    rcases hw with ((((rfl | rfl) | rfl) | rfl) | rfl) | rfl <;> exact absurd h (by decide)

/-! ## Decimal rendering and parsing helpers -/

theorem parseNat_foldl_acc :
    ∀ (b : List Char) (acc : ℕ),
      b.foldl (fun a c => 10 * a + (c.toNat - 48)) acc = acc * 10 ^ b.length + parseNat b := by
  intro b
  induction b with
  | nil => intro acc; simp [parseNat]
  | cons c b ih =>
    intro acc
    rw [List.foldl_cons]
    rw [ih (10 * acc + (c.toNat - 48))]
    have hc : parseNat (c :: b) = (10 * 0 + (c.toNat - 48)) * 10 ^ b.length + parseNat b := by
      rw [parseNat, List.foldl_cons]
      exact ih _
    rw [hc]
    simp only [List.length_cons]
    ring

theorem parseNat_app (a b : List Char) :
    parseNat (a ++ b) = parseNat a * 10 ^ b.length + parseNat b := by
  rw [parseNat, List.foldl_append, parseNat_foldl_acc]
  rfl

theorem parseNat_cons_zero (a : List Char) : parseNat ('0' :: a) = parseNat a := by
  rw [parseNat, List.foldl_cons]
  norm_num
  rfl

theorem parseNat_replicate_zero (k : ℕ) : parseNat (List.replicate k '0') = 0 := by
  induction k with
  | zero => rfl
  | succ k ih => rw [List.replicate_succ, parseNat_cons_zero, ih]

theorem digitChar_isDigit {d : ℕ} (h : d < 10) : (digitChar d).isDigit = true := by
  interval_cases d <;> decide

theorem digitChar_toNat {d : ℕ} (h : d < 10) : (digitChar d).toNat = 48 + d := by
  interval_cases d <;> decide

theorem natDigsRevF_isDigit :
    ∀ (f n : ℕ), n ≤ f → ∀ c ∈ natDigsRevF f n, c.isDigit = true := by
  intro f
  induction f with
  | zero =>
    intro n hn
    have : n = 0 := Nat.le_zero.mp hn
    subst this
    simp [natDigsRevF]
  | succ f ih =>
    intro n hn c hc
    cases n with
    | zero => simp [natDigsRevF] at hc
    | succ k =>
      rw [natDigsRevF] at hc
      rcases List.mem_cons.mp hc with rfl | hc
      · exact digitChar_isDigit (Nat.mod_lt _ (by omega))
      · refine ih ((k + 1) / 10) ?_ c hc
        have := Nat.div_lt_self (Nat.succ_pos k) (by norm_num : 1 < 10)
        omega

theorem natDigsRevF_val :
    ∀ (f n : ℕ), n ≤ f → parseNat ((natDigsRevF f n).reverse) = n := by
  intro f
  induction f with
  | zero =>
    intro n hn
    have : n = 0 := Nat.le_zero.mp hn
    subst this
    rfl
  | succ f ih =>
    intro n hn
    cases n with
    | zero => rfl
    | succ k =>
      rw [natDigsRevF, List.reverse_cons, parseNat_app]
      rw [ih ((k + 1) / 10) (by
        have := Nat.div_lt_self (Nat.succ_pos k) (by norm_num : 1 < 10)
        omega)]
      have hm : (k + 1) % 10 < 10 := Nat.mod_lt _ (by omega)
      simp only [List.length_cons, List.length_nil, pow_one]
      rw [show parseNat [digitChar ((k + 1) % 10)] = (digitChar ((k + 1) % 10)).toNat - 48 by
        rw [parseNat, List.foldl_cons]; simp]
      rw [digitChar_toNat hm]
      omega

theorem natDigs_isDigit (n : ℕ) : ∀ c ∈ natDigs n, c.isDigit = true := by
  rw [natDigs]
  split
  · intro c hc; simp at hc; subst hc; decide
  · intro c hc
    exact natDigsRevF_isDigit n n le_rfl c (List.mem_reverse.mp hc)

theorem parseNat_natDigs (n : ℕ) : parseNat (natDigs n) = n := by
  rw [natDigs]
  split
  · subst (by assumption : n = 0); rfl
  · exact natDigsRevF_val n n le_rfl

theorem natDigs_ne_nil (n : ℕ) : natDigs n ≠ [] := by
  rw [natDigs]
  split
  · simp
  · intro h
    rw [List.reverse_eq_nil_iff] at h
    rename_i hn
    cases n with
    | zero => exact hn rfl
    | succ k => rw [natDigsRevF] at h; cases h

theorem pow10_pos (e : ℤ) : 0 < pow10 e := by
  unfold pow10
  split
  · positivity
  · positivity

theorem PyFloat.val_eq_zero_iff (x : PyFloat) : x.val = 0 ↔ x.mant = 0 := by
  unfold PyFloat.val
  constructor
  · intro h
    rcases mul_eq_zero.mp h with h1 | h1
    · rcases mul_eq_zero.mp h1 with h2 | h2
      · cases hb : x.neg <;> rw [hb] at h2 <;> norm_num at h2
      · exact_mod_cast h2
    · exact absurd h1 (ne_of_gt (pow10_pos _))
  · intro h; rw [h]; norm_num

theorem pyRepr_zero (b : Bool) (e : ℤ) :
    pyRepr ⟨b, 0, e⟩ = (if b then ['-'] else []) ++ ('0' :: '.' :: ['0']) := by
  simp [pyRepr, stripZF]

theorem zip_all_iff (f : PyFloat × PyFloat → Bool) :
    ∀ (oa ca : List PyFloat), ((oa.zip ca).all f = true) ↔
      (∀ (i : ℕ) (x y : PyFloat), oa.get? i = some x → ca.get? i = some y → f (x, y) = true) := by
  intro oa
  induction oa with
  | nil => intro ca; simp
  | cons a oa ih =>
    intro ca
    cases ca with
    | nil => simp
    | cons b ca =>
      simp only [List.zip_cons_cons, List.all_cons, Bool.and_eq_true, ih ca]
      constructor
      · rintro ⟨h0, h⟩ i x y hx hy
        cases i with
        | zero =>
          simp only [List.get?_cons_zero, Option.some.injEq] at hx hy
          rw [← hx, ← hy]; exact h0
        | succ i =>
          simp only [List.get?_cons_succ] at hx hy
          exact h i x y hx hy
      · intro h
        exact ⟨h 0 a b rfl rfl, fun i x y hx hy =>
          h (i + 1) x y (by rw [List.get?_cons_succ]; exact hx)
            (by rw [List.get?_cons_succ]; exact hy)⟩

theorem zip_self_all (f : PyFloat × PyFloat → Bool) (l : List PyFloat) :
    (l.zip l).all f = l.all (fun a => f (a, a)) := by
  induction l with
  | nil => rfl
  | cons a l ih => simp [List.zip_cons_cons, ih]

theorem parseAll_none_iff (l : List (List Char)) :
    parseAll l = none ↔ ∃ c ∈ l, pyParse c = none := by
  induction l with
  | nil => simp [parseAll]
  | cons c l ih =>
    rw [parseAll]
    cases h : pyParse c with
    | none => simp [h]
    | some x => simp [h, ih, Option.map_eq_none']

theorem parseAll_some_get :
    ∀ (l : List (List Char)) (r : List PyFloat), parseAll l = some r →
      r.length = l.length ∧ ∀ (i : ℕ) (c : List Char), l.get? i = some c →
        ∃ x, pyParse c = some x ∧ r.get? i = some x := by
  intro l
  induction l with
  | nil =>
    intro r h
    rw [parseAll, Option.some.injEq] at h
    subst h
    exact ⟨rfl, by simp⟩
  | cons c l ih =>
    intro r h
    rw [parseAll] at h
    cases hp : pyParse c with
    | none => rw [hp] at h; exact absurd h (by simp)
    | some x =>
      rw [hp] at h
      cases ht : parseAll l with
      | none => rw [ht] at h; exact absurd h (by simp)
      | some t =>
        rw [ht] at h
        simp only [Option.map_some', Option.some.injEq] at h
        subst h
        obtain ⟨hlen, hget⟩ := ih t ht
        refine ⟨by simp [hlen], ?_⟩
        intro i d hd
        cases i with
        | zero =>
          simp only [List.get?_cons_zero, Option.some.injEq] at hd
          exact ⟨x, by rw [← hd]; exact hp, rfl⟩
        | succ i =>
          simp only [List.get?_cons_succ] at hd ⊢
          exact hget i d hd

theorem scanFirst_none_iff {α : Type} (hf : List Char → Option α) (hnil : hf [] = none) :
    ∀ (f : ℕ) (s : List Char), s.length ≤ f →
      (scanFirst hf f s = none ↔ ∀ i, hf (s.drop i) = none) := by
  intro f
  induction f with
  | zero =>
    intro s hl
    have : s = [] := List.length_eq_zero.mp (Nat.le_zero.mp hl)
    subst this
    simp [scanFirst, hnil]
  | succ f ih =>
    intro s hl
    cases s with
    | nil => simp [scanFirst, hnil]
    | cons c s =>
      rw [scanFirst]
      cases h : hf (c :: s) with
      | some a =>
        simp only [reduceCtorEq, false_iff, not_forall]
        exact ⟨0, by rw [List.drop_zero, h]; simp⟩
      | none =>
        rw [ih s (Nat.succ_le_succ_iff.mp hl)]
        constructor
        · intro hall i
          cases i with
          | zero => simpa using h
          | succ i => simpa using hall i
        · intro hall i
          simpa using hall (i + 1)

theorem scanFirst_some_iff {α : Type} (hf : List Char → Option α) (hnil : hf [] = none) :
    ∀ (f : ℕ) (s : List Char), s.length ≤ f → ∀ (a : α),
      (scanFirst hf f s = some a ↔
        ∃ i, hf (s.drop i) = some a ∧ ∀ j < i, hf (s.drop j) = none) := by
  intro f
  induction f with
  | zero =>
    intro s hl
    have : s = [] := List.length_eq_zero.mp (Nat.le_zero.mp hl)
    subst this
    intro a
    simp [scanFirst, hnil]
  | succ f ih =>
    intro s hl a
    cases s with
    | nil => simp [scanFirst, hnil]
    | cons c s =>
      rw [scanFirst]
      cases h : hf (c :: s) with
      | some b =>
        simp only [Option.some.injEq]
        constructor
        · rintro rfl
          exact ⟨0, by simpa using h, by omega⟩
        · rintro ⟨i, hi, hj⟩
          cases i with
          | zero => simp only [List.drop_zero] at hi; rw [h] at hi; exact Option.some.inj hi
          | succ i => exact absurd (hj 0 (by omega)) (by simp [h])
      | none =>
        rw [ih s (Nat.succ_le_succ_iff.mp hl) a]
        constructor
        · rintro ⟨i, hi, hj⟩
          refine ⟨i + 1, by simpa using hi, ?_⟩
          intro j hjlt
          cases j with
          | zero => simpa using h
          | succ j => simpa using hj j (by omega)
        · rintro ⟨i, hi, hj⟩
          cases i with
          | zero => rw [List.drop_zero, h] at hi; cases hi
          | succ i =>
            refine ⟨i, by simpa using hi, ?_⟩
            intro j hjlt
            simpa using hj (j + 1) (by omega)

/-! ## Round-trip of serialisation and parsing -/

theorem pow10_nonneg_eq {e : ℤ} (h : 0 ≤ e) : pow10 e = (10 : ℚ) ^ e.toNat := by
  rw [pow10, if_pos h]
  push_cast
  rfl

theorem pow10_neg_eq {e : ℤ} (h : ¬ 0 ≤ e) : pow10 e = 1 / (10 : ℚ) ^ (-e).toNat := by
  rw [pow10, if_neg h]
  push_cast
  rfl

theorem pow10_succ (e : ℤ) : pow10 (e + 1) = 10 * pow10 e := by
  by_cases h : 0 ≤ e
  · rw [pow10_nonneg_eq h, pow10_nonneg_eq (by omega)]
    rw [show (e + 1).toNat = e.toNat + 1 by omega]
    ring
  · by_cases h1 : 0 ≤ e + 1
    · have he : e = -1 := by omega
      subst he
      norm_num [pow10_nonneg_eq, pow10_neg_eq, h]
    · rw [pow10_neg_eq h, pow10_neg_eq h1]
      rw [show (-e).toNat = (-(e + 1)).toNat + 1 by omega]
      rw [pow_succ]
      have : ((10 : ℚ) ^ (-(e + 1)).toNat) ≠ 0 := by positivity
      field_simp

theorem stripZF_val :
    ∀ (f m : ℕ) (e : ℤ),
      ((stripZF f m e).1 : ℚ) * pow10 (stripZF f m e).2 = (m : ℚ) * pow10 e := by
  intro f
  induction f with
  | zero => intro m e; rfl
  | succ f ih =>
    intro m e
    rw [stripZF]
    split
    · rename_i hcond
      rw [ih (m / 10) (e + 1), pow10_succ]
      have hme : m = 10 * (m / 10) := by omega
      rw [show ((m / 10 : ℕ) : ℚ) * (10 * pow10 e) = ((10 * (m / 10) : ℕ) : ℚ) * pow10 e by
        push_cast; ring]
      rw [← hme]
    · rfl

theorem stripZF_fst_eq_zero :
    ∀ (f m : ℕ) (e : ℤ), (stripZF f m e).1 = 0 → m = 0 := by
  intro f
  induction f with
  | zero => intro m e h; exact h
  | succ f ih =>
    intro m e h
    rw [stripZF] at h
    split at h
    · rename_i hcond
      have := ih (m / 10) (e + 1) h
      omega
    · exact h

theorem val_mk (b : Bool) (m : ℕ) (e : ℤ) :
    (⟨b, m, e⟩ : PyFloat).val = (if b then -1 else 1) * (m : ℚ) * pow10 e := rfl

theorem val_pyNeg (x : PyFloat) : (pyNeg x).val = -(x.val) := by
  obtain ⟨b, m, e⟩ := x
  cases b <;> simp [pyNeg, val_mk]

theorem dropWhileNone (p : Char → Bool) (s : List Char) (h : ∀ c ∈ s, p c = false) :
    s.dropWhile p = s := by
  cases s with
  | nil => rfl
  | cons c s => simp [List.dropWhile_cons, h c (by simp)]

theorem trim_eq_self (s : List Char) (h : ∀ c ∈ s, isWs c = false) : trim s = s := by
  rw [trim, dropWhileNone isWs s h, dropWhileNone isWs s.reverse
    (fun c hc => h c (List.mem_reverse.mp hc)), List.reverse_reverse]

theorem fracSplit_dot (r : List Char) :
    fracSplit ('.' :: r) = (r.takeWhile Char.isDigit, r.drop (r.takeWhile Char.isDigit).length) := by
  simp [fracSplit]

theorem fracSplit_not (c : Char) (r : List Char) (h : ¬ c = '.') :
    fracSplit (c :: r) = ([], c :: r) := by
  simp [fracSplit, h]

theorem pyParse_signed (b : Bool) (c : Char) (v : List Char)
    (hc : c.isDigit = true) (hws : ∀ d ∈ c :: v, isWs d = false) :
    pyParse ((if b then ['-'] else []) ++ (c :: v)) = pyParseAfter (b, c :: v) := by
  rw [pyParse]
  have htrim : trim ((if b then ['-'] else []) ++ (c :: v)) =
      (if b then ['-'] else []) ++ (c :: v) := by
    apply trim_eq_self
    intro d hd
    rcases List.mem_append.mp hd with h | h
    · cases b
      · simp at h
      · simp at h; subst h; decide
    · exact hws d h
  rw [htrim]
  cases b
  · simp only [Bool.false_eq_true, if_false, List.nil_append]
    have h1 : c ≠ '-' := ne_of_isDigit_of_not hc (by decide)
    have h2 : c ≠ '+' := ne_of_isDigit_of_not hc (by decide)
    rw [stripSign, if_neg h1, if_neg h2]
  · simp only [if_true, List.cons_append]
    rw [stripSign]
    simp

theorem pyParseAfter_posit (b : Bool) (a c2 : List Char)
    (ha : ∀ ch ∈ a, ch.isDigit = true) (hc2 : ∀ ch ∈ c2, ch.isDigit = true)
    (hne : a ≠ [] ∨ c2 ≠ []) :
    pyParseAfter (b, a ++ '.' :: c2) = some ⟨b, parseNat (a ++ c2), -(c2.length : ℤ)⟩ := by
  have hip : (a ++ '.' :: c2).takeWhile Char.isDigit = a := by
    rw [takeWhileAppAll _ a _ ha]
    simp [List.takeWhile_cons]
  have hc2tw : c2.takeWhile Char.isDigit = c2 := takeWhileAllSelf _ _ hc2
  simp only [pyParseAfter, hip]
  rw [show (a ++ '.' :: c2).drop a.length = '.' :: c2 from List.drop_left a _]
  rw [fracSplit_dot, hc2tw, List.drop_length]
  have hguard : (a.isEmpty && c2.isEmpty) = false := by
    rcases hne with h | h
    · cases a with
      | nil => exact absurd rfl h
      | cons x xs => rfl
    · cases c2 with
      | nil => exact absurd rfl h
      | cons x xs => simp
  rw [hguard]
  simp only [Bool.false_eq_true, if_false, parseExpTail, List.isEmpty_nil, if_pos rfl]
  norm_num

theorem pyParseAfter_sciNoDot (b : Bool) (a : List Char) (n2 : Bool) (d2 : List Char)
    (ha : ∀ ch ∈ a, ch.isDigit = true) (hane : a ≠ [])
    (hd2 : ∀ ch ∈ d2, ch.isDigit = true) (hd2ne : d2 ≠ []) :
    pyParseAfter (b, a ++ 'e' :: (if n2 then '-' else '+') :: d2) =
      some ⟨b, parseNat a, if n2 then -(parseNat d2 : ℤ) else (parseNat d2 : ℤ)⟩ := by
  have hip : (a ++ 'e' :: (if n2 then '-' else '+') :: d2).takeWhile Char.isDigit = a := by
    rw [takeWhileAppAll _ a _ ha]
    simp [List.takeWhile_cons]
  have hd2tw : d2.takeWhile Char.isDigit = d2 := takeWhileAllSelf _ _ hd2
  simp only [pyParseAfter, hip]
  rw [show (a ++ 'e' :: (if n2 then '-' else '+') :: d2).drop a.length =
    'e' :: (if n2 then '-' else '+') :: d2 from List.drop_left a _]
  rw [fracSplit_not _ _ (by decide)]
  have hguard : (a.isEmpty && List.isEmpty ([] : List Char)) = false := by
    cases a with
    | nil => exact absurd rfl hane
    | cons x xs => rfl
  rw [hguard]
  simp only [Bool.false_eq_true, if_false, parseExpTail,
    if_pos (Or.inl rfl : ('e' : Char) = 'e' ∨ ('e' : Char) = 'E'), parseExpNum]
  have hss : stripSign ((if n2 then '-' else '+') :: d2) = (n2, d2) := by
    cases n2 <;> simp [stripSign]
  rw [hss]
  simp only [hd2tw, List.drop_length]
  have hd2e : d2.isEmpty = false := by
    cases d2 with
    | nil => exact absurd rfl hd2ne
    | cons x xs => rfl
  rw [hd2e]
  simp only [Bool.false_eq_true, if_false, List.isEmpty_nil, if_pos rfl]
  cases n2 <;> simp

theorem pyParseAfter_sciDot (b : Bool) (a c2 : List Char) (n2 : Bool) (d2 : List Char)
    (ha : ∀ ch ∈ a, ch.isDigit = true) (hane : a ≠ [])
    (hc2 : ∀ ch ∈ c2, ch.isDigit = true)
    (hd2 : ∀ ch ∈ d2, ch.isDigit = true) (hd2ne : d2 ≠ []) :
    pyParseAfter (b, a ++ '.' :: (c2 ++ 'e' :: (if n2 then '-' else '+') :: d2)) =
      some ⟨b, parseNat (a ++ c2),
        (if n2 then -(parseNat d2 : ℤ) else (parseNat d2 : ℤ)) - c2.length⟩ := by
  have hip : (a ++ '.' :: (c2 ++ 'e' :: (if n2 then '-' else '+') :: d2)).takeWhile
      Char.isDigit = a := by
    rw [takeWhileAppAll _ a _ ha]
    simp [List.takeWhile_cons]
  have hc2tw : (c2 ++ 'e' :: (if n2 then '-' else '+') :: d2).takeWhile Char.isDigit = c2 := by
    rw [takeWhileAppAll _ c2 _ hc2]
    simp [List.takeWhile_cons]
  have hd2tw : d2.takeWhile Char.isDigit = d2 := takeWhileAllSelf _ _ hd2
  simp only [pyParseAfter, hip]
  rw [show (a ++ '.' :: (c2 ++ 'e' :: (if n2 then '-' else '+') :: d2)).drop a.length =
    '.' :: (c2 ++ 'e' :: (if n2 then '-' else '+') :: d2) from List.drop_left a _]
  rw [fracSplit_dot, hc2tw]
  rw [show (c2 ++ 'e' :: (if n2 then '-' else '+') :: d2).drop c2.length =
    'e' :: (if n2 then '-' else '+') :: d2 from List.drop_left c2 _]
  have hguard : (a.isEmpty && c2.isEmpty) = false := by
    cases a with
    | nil => exact absurd rfl hane
    | cons x xs => rfl
  rw [hguard]
  simp only [Bool.false_eq_true, if_false, parseExpTail,
    if_pos (Or.inl rfl : ('e' : Char) = 'e' ∨ ('e' : Char) = 'E'), parseExpNum]
  have hss : stripSign ((if n2 then '-' else '+') :: d2) = (n2, d2) := by
    cases n2 <;> simp [stripSign]
  rw [hss]
  simp only [hd2tw, List.drop_length]
  have hd2e : d2.isEmpty = false := by
    cases d2 with
    | nil => exact absurd rfl hd2ne
    | cons x xs => rfl
  rw [hd2e]
  simp only [Bool.false_eq_true, if_false, List.isEmpty_nil, if_pos rfl]
  cases n2 <;> simp

theorem sciDigs_isDigit (de : ℤ) : ∀ c ∈ sciDigs de, c.isDigit = true := by
  simp only [sciDigs]
  split
  · intro c hc
    rcases List.mem_cons.mp hc with rfl | hc
    · decide
    · exact natDigs_isDigit _ c hc
  · exact natDigs_isDigit _

theorem sciDigs_ne_nil (de : ℤ) : sciDigs de ≠ [] := by
  simp only [sciDigs]
  split
  · simp
  · exact natDigs_ne_nil _

theorem parseNat_sciDigs (de : ℤ) : parseNat (sciDigs de) = de.natAbs := by
  simp only [sciDigs]
  split
  · rw [parseNat_cons_zero, parseNat_natDigs]
  · rw [parseNat_natDigs]

theorem pyRepr_chars (x : PyFloat) :
    ∀ c ∈ pyRepr x, c.isDigit = true ∨ c = '-' ∨ c = '.' ∨ c = 'e' ∨ c = '+' := by
  intro c hc
  have hsgn : ∀ d ∈ (if x.neg then ['-'] else ([] : List Char)),
      d.isDigit = true ∨ d = '-' ∨ d = '.' ∨ d = 'e' ∨ d = '+' := by
    intro d hd
    cases x.neg <;> simp_all
  simp only [pyRepr] at hc
  split at hc
  · rcases List.mem_append.mp hc with h | h
    · exact hsgn c h
    · rcases List.mem_cons.mp h with rfl | h
      · left; decide
      · rcases List.mem_cons.mp h with rfl | h
        · right; right; left; rfl
        · simp at h; subst h; left; decide
  · split at hc
    · split at hc
      · rcases List.mem_append.mp hc with h | h
        · rcases List.mem_append.mp h with h | h
          · rcases List.mem_append.mp h with h | h
            · exact hsgn c h
            · exact Or.inl (natDigs_isDigit _ c h)
          · left
            have := List.eq_of_mem_replicate h
            subst this; decide
        · rcases List.mem_cons.mp h with rfl | h
          · right; right; left; rfl
          · simp at h; subst h; left; decide
      · split at hc
        · rcases List.mem_append.mp hc with h | h
          · rcases List.mem_append.mp h with h | h
            · exact hsgn c h
            · exact Or.inl (natDigs_isDigit _ c (List.take_subset _ _ h))
          · rcases List.mem_cons.mp h with rfl | h
            · right; right; left; rfl
            · exact Or.inl (natDigs_isDigit _ c (List.drop_subset _ _ h))
        · rcases List.mem_append.mp hc with h | h
          · exact hsgn c h
          · rcases List.mem_cons.mp h with rfl | h
            · left; decide
            · rcases List.mem_cons.mp h with rfl | h
              · right; right; left; rfl
              · rcases List.mem_append.mp h with h | h
                · left
                  have := List.eq_of_mem_replicate h
                  subst this; decide
                · exact Or.inl (natDigs_isDigit _ c h)
    · rcases List.mem_append.mp hc with h | h
      · rcases List.mem_append.mp h with h | h
        · rcases List.mem_append.mp h with h | h
          · exact hsgn c h
          · exact Or.inl (natDigs_isDigit _ c (List.take_subset _ _ h))
        · split at h
          · simp at h
          · rcases List.mem_cons.mp h with rfl | h
            · right; right; left; rfl
            · exact Or.inl (natDigs_isDigit _ c (List.drop_subset _ _ h))
      · rcases List.mem_cons.mp h with rfl | h
        · right; right; right; left; rfl
        · rcases List.mem_cons.mp h with rfl | h
          · split
            · right; left; rfl
            · right; right; right; right; rfl
          · exact Or.inl (sciDigs_isDigit _ c h)

theorem pyRepr_not_ws (x : PyFloat) : ∀ c ∈ pyRepr x, isWs c = false := by
  intro c hc
  rcases pyRepr_chars x c hc with h | rfl | rfl | rfl | rfl
  · exact isWs_eq_false_of_isDigit h
  all_goals decide

theorem pyRepr_ne_lt (x : PyFloat) : ∀ c ∈ pyRepr x, c ≠ '<' := by
  intro c hc
  rcases pyRepr_chars x c hc with h | rfl | rfl | rfl | rfl
  · exact ne_of_isDigit_of_not h (by decide)
  all_goals decide

theorem pyParse_signed_take (b : Bool) (body : List Char) (hne : body ≠ [])
    (hd : ∀ c ∈ body.take 1, c.isDigit = true)
    (hws : ∀ d ∈ body, isWs d = false) :
    pyParse ((if b then ['-'] else []) ++ body) = pyParseAfter (b, body) := by
  obtain ⟨c, v, rfl⟩ := List.exists_cons_of_ne_nil hne
  exact pyParse_signed b c v (hd c (by simp)) hws

theorem val_eq_of_core (b : Bool) (m1 m2 : ℕ) (e1 e2 : ℤ)
    (h : (m1 : ℚ) * pow10 e1 = (m2 : ℚ) * pow10 e2) :
    (⟨b, m1, e1⟩ : PyFloat).val = (⟨b, m2, e2⟩ : PyFloat).val := by
  rw [val_mk, val_mk, mul_assoc, mul_assoc, h]

/-- Serialising a float and parsing the result yields a float with the same
value and the same sign bit. -/
theorem pyParse_pyRepr (x : PyFloat) :
    ∃ y : PyFloat, pyParse (pyRepr x) = some y ∧ y.val = x.val ∧ y.neg = x.neg := by
  obtain ⟨b, M, E⟩ := x
  have hval : (((stripZF M M E).1 : ℚ)) * pow10 (stripZF M M E).2 = (M : ℚ) * pow10 E :=
    stripZF_val M M E
  by_cases hm0 : (stripZF M M E).1 = 0
  · have hM0 : M = 0 := stripZF_fst_eq_zero M M E hm0
    subst hM0
    have hrepr : pyRepr ⟨b, 0, E⟩ = (if b then ['-'] else []) ++ ('0' :: '.' :: ['0']) :=
      pyRepr_zero b E
    cases b
    · exact ⟨⟨false, 0, -1⟩, by rw [hrepr]; decide, by simp [val_mk], rfl⟩
    · exact ⟨⟨true, 0, -1⟩, by rw [hrepr]; decide, by simp [val_mk], rfl⟩
  · set m := (stripZF M M E).1 with hm_def
    set e := (stripZF M M E).2 with he_def
    set ds := natDigs m with hds_def
    have hdsd : ∀ c ∈ ds, c.isDigit = true := by rw [hds_def]; exact natDigs_isDigit m
    have hdsne : ds ≠ [] := by rw [hds_def]; exact natDigs_ne_nil m
    have hdsval : parseNat ds = m := by rw [hds_def]; exact parseNat_natDigs m
    obtain ⟨d0, dtl, hds0⟩ := List.exists_cons_of_ne_nil hdsne
    have hd0 : d0.isDigit = true := hdsd d0 (by rw [hds0]; simp)
    have hL1 : 1 ≤ ds.length := by rw [hds0]; simp
    by_cases hrange : -4 ≤ (ds.length : ℤ) + e - 1 ∧ (ds.length : ℤ) + e - 1 < 16
    · by_cases he : 0 ≤ e
      · -- positional, integral value
        have hrepr : pyRepr ⟨b, M, E⟩ = (if b then ['-'] else []) ++
            (ds ++ List.replicate e.toNat '0' ++ ('.' :: ['0'])) := by
          simp only [pyRepr, ← hm_def, ← he_def, ← hds_def]
          rw [if_neg hm0, if_pos hrange, if_pos he]
          simp [List.append_assoc]
        have hws : ∀ d ∈ ds ++ List.replicate e.toNat '0' ++ ('.' :: ['0']), isWs d = false :=
          fun d hd => pyRepr_not_ws _ d (by rw [hrepr]; exact List.mem_append_right _ hd)
        have htake : (ds ++ List.replicate e.toNat '0' ++ ('.' :: ['0'])).take 1 = [d0] := by
          rw [hds0]; rfl
        have h1 : pyParse (pyRepr ⟨b, M, E⟩) =
            pyParseAfter (b, (ds ++ List.replicate e.toNat '0') ++ '.' :: ['0']) := by
          rw [hrepr]
          exact pyParse_signed_take b _ (by simp)
            (by rw [htake]; intro c hc; simp at hc; subst hc; exact hd0) hws
        have h2 := pyParseAfter_posit b (ds ++ List.replicate e.toNat '0') ['0']
          (by
            intro ch hch
            rcases List.mem_append.mp hch with h | h
            · exact hdsd ch h
            · rw [List.eq_of_mem_replicate h]; decide)
          (by intro ch hch; simp at hch; subst hch; decide)
          (Or.inr (by simp))
        refine ⟨_, by rw [h1, h2], ?_, by rfl⟩
        apply val_eq_of_core
        rw [← hval]
        rw [parseNat_app, parseNat_app, parseNat_replicate_zero, hdsval]
        have hp1 : pow10 (-(([('0' : Char)] : List Char).length : ℤ)) = 1 / 10 := by
          norm_num [pow10]
        rw [hp1, pow10_nonneg_eq he]
        push_cast
        simp only [List.length_replicate, List.length_cons, List.length_nil]
        have : parseNat ['0'] = 0 := rfl
        rw [this]
        push_cast
        ring
      · -- positional, fractional value
        push_neg at he
        set L := ds.length with hL_def
        set k := (-e).toNat with hk_def
        have hek : (k : ℤ) = -e := by rw [hk_def]; omega
        by_cases hkL : k < L
        · have hrepr : pyRepr ⟨b, M, E⟩ = (if b then ['-'] else []) ++
              (ds.take (L - k) ++ '.' :: ds.drop (L - k)) := by
            simp only [pyRepr, ← hm_def, ← he_def, ← hds_def, ← hk_def, ← hL_def]
            rw [if_neg hm0, if_pos hrange, if_neg (by omega), if_pos hkL]
            simp [List.append_assoc]
          have hws : ∀ d ∈ ds.take (L - k) ++ '.' :: ds.drop (L - k), isWs d = false :=
            fun d hd => pyRepr_not_ws _ d (by rw [hrepr]; exact List.mem_append_right _ hd)
          have htake : (ds.take (L - k) ++ '.' :: ds.drop (L - k)).take 1 = [d0] := by
            rw [hds0]
            have : L - k = (L - k - 1) + 1 := by omega
            rw [this]
            rfl
          have h1 : pyParse (pyRepr ⟨b, M, E⟩) =
              pyParseAfter (b, ds.take (L - k) ++ '.' :: ds.drop (L - k)) := by
            rw [hrepr]
            exact pyParse_signed_take b _ (by simp)
              (by rw [htake]; intro c hc; simp at hc; subst hc; exact hd0) hws
          have h2 := pyParseAfter_posit b (ds.take (L - k)) (ds.drop (L - k))
            (fun ch hch => hdsd ch (List.take_subset _ _ hch))
            (fun ch hch => hdsd ch (List.drop_subset _ _ hch))
            (Or.inr (by
              intro hcontra
              have := congrArg List.length hcontra
              rw [List.length_drop] at this
              simp at this
              omega))
          refine ⟨_, by rw [h1, h2], ?_, by rfl⟩
          apply val_eq_of_core
          rw [List.take_append_drop, hdsval]
          have hlen : ((ds.drop (L - k)).length : ℤ) = k := by
            rw [List.length_drop]
            push_cast
            omega
          rw [hlen, hek, neg_neg]
          exact hval
        · have hrepr : pyRepr ⟨b, M, E⟩ = (if b then ['-'] else []) ++
              ('0' :: '.' :: (List.replicate (k - L) '0' ++ ds)) := by
            simp only [pyRepr, ← hm_def, ← he_def, ← hds_def, ← hk_def, ← hL_def]
            rw [if_neg hm0, if_pos hrange, if_neg (by omega), if_neg hkL]
          have hws : ∀ d ∈ ('0' :: '.' :: (List.replicate (k - L) '0' ++ ds)), isWs d = false :=
            fun d hd => pyRepr_not_ws _ d (by rw [hrepr]; exact List.mem_append_right _ hd)
          have h1 : pyParse (pyRepr ⟨b, M, E⟩) =
              pyParseAfter (b, ['0'] ++ '.' :: (List.replicate (k - L) '0' ++ ds)) := by
            rw [hrepr]
            exact pyParse_signed_take b _ (by simp)
              (by intro c hc; simp at hc; subst hc; decide) hws
          have h2 := pyParseAfter_posit b ['0'] (List.replicate (k - L) '0' ++ ds)
            (by intro ch hch; simp at hch; subst hch; decide)
            (by
              intro ch hch
              rcases List.mem_append.mp hch with h | h
              · rw [List.eq_of_mem_replicate h]; decide
              · exact hdsd ch h)
            (Or.inl (by simp))
          refine ⟨_, by rw [h1, h2], ?_, by rfl⟩
          apply val_eq_of_core
          rw [show (['0'] ++ (List.replicate (k - L) '0' ++ ds)) =
            '0' :: (List.replicate (k - L) '0' ++ ds) from rfl]
          rw [parseNat_cons_zero, parseNat_app, parseNat_replicate_zero, hdsval]
          simp only [Nat.zero_mul, Nat.zero_add]
          have hlen : (((List.replicate (k - L) '0' ++ ds)).length : ℤ) = k := by
            rw [List.length_append, List.length_replicate]
            push_cast
            omega
          rw [hlen, hek, neg_neg]
          exact hval
    · -- scientific notation
      set de : ℤ := (ds.length : ℤ) + e - 1 with hde_def
      set n2 := decide (de < 0) with hn2_def
      have hchar : (if de < 0 then '-' else '+') = (if n2 then '-' else '+') := by
        by_cases h : de < 0 <;> simp [hn2_def, h]
      have hd2d : ∀ ch ∈ sciDigs de, ch.isDigit = true := sciDigs_isDigit de
      have hd2ne : sciDigs de ≠ [] := sciDigs_ne_nil de
      have hexval : (if n2 then -(parseNat (sciDigs de) : ℤ) else (parseNat (sciDigs de) : ℤ))
          = de := by
        rw [parseNat_sciDigs]
        by_cases h : de < 0
        · rw [if_pos (by rw [hn2_def]; simpa using h)]
          omega
        · rw [if_neg (by rw [hn2_def]; simpa using h)]
          omega
      by_cases hlen : ds.length = 1
      · have hdtl : dtl = [] := by
          have := congrArg List.length hds0
          rw [hlen] at this
          simpa using this.symm
        have hds1 : ds = [d0] := by rw [hds0, hdtl]
        have hrepr : pyRepr ⟨b, M, E⟩ = (if b then ['-'] else []) ++
            (ds.take 1 ++ 'e' :: (if n2 then '-' else '+') :: sciDigs de) := by
          simp only [pyRepr, ← hm_def, ← he_def, ← hds_def, ← hde_def]
          rw [if_neg hm0, if_neg hrange, if_pos hlen, hchar]
          simp
        have hws : ∀ d ∈ ds.take 1 ++ 'e' :: (if n2 then '-' else '+') :: sciDigs de,
            isWs d = false :=
          fun d hd => pyRepr_not_ws _ d (by rw [hrepr]; exact List.mem_append_right _ hd)
        have h1 : pyParse (pyRepr ⟨b, M, E⟩) =
            pyParseAfter (b, ds.take 1 ++ 'e' :: (if n2 then '-' else '+') :: sciDigs de) := by
          rw [hrepr]
          exact pyParse_signed_take b _ (by rw [hds1]; simp)
            (by rw [hds1]; intro c hc; simp at hc; subst hc; exact hd0) hws
        have h2 := pyParseAfter_sciNoDot b (ds.take 1) n2 (sciDigs de)
          (fun ch hch => hdsd ch (List.take_subset _ _ hch))
          (by rw [hds1]; simp)
          hd2d hd2ne
        refine ⟨_, by rw [h1, h2], ?_, by rfl⟩
        apply val_eq_of_core
        rw [show ds.take 1 = ds by rw [hds1]; rfl]
        rw [hdsval, hexval, ← hval]
        have : de = e := by rw [hde_def, hlen]; push_cast; ring
        rw [this]
      · have hrepr : pyRepr ⟨b, M, E⟩ = (if b then ['-'] else []) ++
            (ds.take 1 ++ '.' :: (ds.drop 1 ++ 'e' :: (if n2 then '-' else '+') ::
              sciDigs de)) := by
          simp only [pyRepr, ← hm_def, ← he_def, ← hds_def, ← hde_def]
          rw [if_neg hm0, if_neg hrange, if_neg hlen, hchar]
          simp
        have hws : ∀ d ∈ ds.take 1 ++ '.' :: (ds.drop 1 ++ 'e' :: (if n2 then '-' else '+') ::
            sciDigs de), isWs d = false :=
          fun d hd => pyRepr_not_ws _ d (by rw [hrepr]; exact List.mem_append_right _ hd)
        have htake1 : ds.take 1 = [d0] := by rw [hds0]; rfl
        have h1 : pyParse (pyRepr ⟨b, M, E⟩) =
            pyParseAfter (b, ds.take 1 ++ '.' :: (ds.drop 1 ++ 'e' ::
              (if n2 then '-' else '+') :: sciDigs de)) := by
          rw [hrepr]
          exact pyParse_signed_take b _ (by rw [htake1]; simp)
            (by
              rw [show (ds.take 1 ++ '.' :: (ds.drop 1 ++ 'e' :: (if n2 then '-' else '+') ::
                sciDigs de)).take 1 = [d0] by rw [htake1]; rfl]
              intro c hc; simp at hc; subst hc; exact hd0) hws
        have h2 := pyParseAfter_sciDot b (ds.take 1) (ds.drop 1) n2 (sciDigs de)
          (fun ch hch => hdsd ch (List.take_subset _ _ hch))
          (by rw [htake1]; simp)
          (fun ch hch => hdsd ch (List.drop_subset _ _ hch))
          hd2d hd2ne
        refine ⟨_, by rw [h1, h2], ?_, by rfl⟩
        apply val_eq_of_core
        rw [List.take_append_drop, hdsval, hexval, ← hval]
        have hlend : ((ds.drop 1).length : ℤ) = (ds.length : ℤ) - 1 := by
          rw [List.length_drop]
          push_cast
          omega
        rw [hlend]
        have : de - ((ds.length : ℤ) - 1) = e := by rw [hde_def]; ring
        rw [this]

/-! ## Segment correspondence of the scanners -/

theorem bne_lt_true {c : Char} (h : c ≠ '<') : (c != '<') = true := by
  simp [bne_iff_ne, h]

theorem leads_length {p s : List Char} (h : leads p s = true) : p.length ≤ s.length := by
  obtain ⟨t, rfl⟩ := (leads_eq_true_iff p s).mp h
  simp

theorem untokT_shape (segs : List (List Char)) :
    untokT segs = [] ∨ ∃ v, untokT segs = '<' :: v := by
  cases segs with
  | nil => left; rfl
  | cons g r => right; exact ⟨g ++ untokT r, rfl⟩

theorem untokT_length (g : List Char) (r : List (List Char)) :
    (untokT (g :: r)).length = g.length + (untokT r).length + 1 := by
  simp [untokT]

theorem segsOk_cons {g : List Char} {r : List (List Char)} (h : segsOk (g :: r)) :
    (∀ c ∈ g, c ≠ '<') ∧ segsOk r := by
  exact ⟨h g (by simp), fun g2 hg2 => h g2 (by simp [hg2])⟩

theorem amtHere_ne_lt {c : Char} (hc : c ≠ '<') (s : List Char) : amtHere (c :: s) = none := by
  rw [amtHere]
  rw [show ("<TRNAMT>".toList) = '<' :: ("TRNAMT>".toList) from rfl]
  rw [leads_head_ne (by exact fun h => hc h.symm)]
  rfl

theorem subLitGo_copy (p r : List Char) (p2 : List Char) (hp : p = '<' :: p2) :
    ∀ (h s : List Char) (f : ℕ), (∀ c ∈ h, c ≠ '<') → (h ++ s).length ≤ f →
      subLitGo p r f (h ++ s) = h ++ subLitGo p r (f - h.length) s := by
  intro h
  induction h with
  | nil => intro s f _ _; simp
  | cons c h ih =>
    intro s f hc hf
    cases f with
    | zero => simp at hf
    | succ f =>
      rw [List.cons_append, subLitGo]
      rw [hp, leads_head_ne (by exact fun hh => (hc c (by simp)) hh.symm)]
      rw [if_neg (by simp)]
      rw [← hp, ih s f (fun d hd => hc d (by simp [hd])) (by simpa using hf)]
      simp only [List.length_cons, List.cons_append]
      rw [show f + 1 - (h.length + 1) = f - h.length by omega]

theorem subAmtGo_copy :
    ∀ (h s : List Char) (f : ℕ), (∀ c ∈ h, c ≠ '<') → (h ++ s).length ≤ f →
      subAmtGo f (h ++ s) = (subAmtGo (f - h.length) s).map (fun t => h ++ t) := by
  intro h
  induction h with
  | nil =>
    intro s f _ _
    simp only [List.nil_append, List.length_nil, Nat.sub_zero]
    cases subAmtGo f s <;> simp
  | cons c h ih =>
    intro s f hc hf
    cases f with
    | zero => simp at hf
    | succ f =>
      rw [List.cons_append, subAmtGo, amtHere_ne_lt (hc c (by simp))]
      rw [ih s f (fun d hd => hc d (by simp [hd])) (by simpa using hf)]
      simp only [List.length_cons]
      rw [show f + 1 - (h.length + 1) = f - h.length by omega]
      cases subAmtGo (f - h.length) s <;> simp

theorem findAmtsGo_copy :
    ∀ (h s : List Char) (f : ℕ), (∀ c ∈ h, c ≠ '<') → (h ++ s).length ≤ f →
      findAmtsGo f (h ++ s) = findAmtsGo (f - h.length) s := by
  intro h
  induction h with
  | nil => intro s f _ _; simp
  | cons c h ih =>
    intro s f hc hf
    cases f with
    | zero => simp at hf
    | succ f =>
      rw [List.cons_append, findAmtsGo, amtHere_ne_lt (hc c (by simp))]
      rw [ih s f (fun d hd => hc d (by simp [hd])) (by simpa using hf)]
      simp only [List.length_cons]
      rw [show f + 1 - (h.length + 1) = f - h.length by omega]

theorem countLitGo_copy (p : List Char) (p2 : List Char) (hp : p = '<' :: p2) :
    ∀ (h s : List Char) (f : ℕ), (∀ c ∈ h, c ≠ '<') → (h ++ s).length ≤ f →
      countLitGo p f (h ++ s) = countLitGo p (f - h.length) s := by
  intro h
  induction h with
  | nil => intro s f _ _; simp
  | cons c h ih =>
    intro s f hc hf
    cases f with
    | zero => simp at hf
    | succ f =>
      rw [List.cons_append, countLitGo]
      rw [hp, leads_head_ne (by exact fun hh => (hc c (by simp)) hh.symm)]
      rw [if_neg (by simp)]
      rw [← hp, ih s f (fun d hd => hc d (by simp [hd])) (by simpa using hf)]
      simp only [List.length_cons]
      rw [show f + 1 - (h.length + 1) = f - h.length by omega]

theorem tagA_no_lt : ∀ c ∈ tagA, c ≠ '<' := by decide

theorem tagAc_no_lt : ∀ c ∈ tagAc, c ≠ '<' := by decide

theorem takeWhile_ne_lt (a u : List Char) (ha : ∀ c ∈ a, c ≠ '<')
    (hu : u = [] ∨ ∃ v, u = '<' :: v) :
    (a ++ u).takeWhile (fun c => c != '<') = a := by
  rw [takeWhileAppAll _ a u (fun c hc => bne_lt_true (ha c hc))]
  rcases hu with rfl | ⟨v, rfl⟩
  · simp
  · simp [List.takeWhile_cons]

theorem dropWhile_ne_lt (a u : List Char) (ha : ∀ c ∈ a, c ≠ '<')
    (hu : u = [] ∨ ∃ v, u = '<' :: v) :
    (a ++ u).dropWhile (fun c => c != '<') = u := by
  rw [dropWhileAppAll _ a u (fun c hc => bne_lt_true (ha c hc))]
  rcases hu with rfl | ⟨v, rfl⟩
  · simp
  · simp [List.dropWhile_cons]

theorem amtSegHit_elim {g : List Char} {segs : List (List Char)} (h : amtSegHit g segs = true) :
    leads tagA g = true ∧ g.drop 7 ≠ [] ∧ ∃ g2 r2, segs = g2 :: r2 ∧ leads tagAc g2 = true := by
  rw [amtSegHit] at h
  simp only [Bool.and_eq_true, Bool.not_eq_true'] at h
  refine ⟨h.1.1, by simpa [List.isEmpty_iff] using h.1.2, ?_⟩
  cases segs with
  | nil => rw [nextLeads] at h; exact absurd h.2 (by simp)
  | cons g2 r2 => exact ⟨g2, r2, rfl, h.2⟩

theorem amtHere_seg_hit (g g2 : List Char) (r2 : List (List Char))
    (hg : ∀ c ∈ g, c ≠ '<') (hg2 : ∀ c ∈ g2, c ≠ '<')
    (h1 : leads tagA g = true) (h2 : g.drop 7 ≠ []) (h3 : leads tagAc g2 = true) :
    amtHere ('<' :: (g ++ untokT (g2 :: r2))) =
      some (g.drop 7, g2.drop 8 ++ untokT r2) := by
  have hu : untokT (g2 :: r2) = '<' :: (g2 ++ untokT r2) := rfl
  have hlg : 7 ≤ g.length := by
    have := leads_length h1
    simpa [tagA] using this
  have hlg2 : 8 ≤ g2.length := by
    have := leads_length h3
    simpa [tagAc] using this
  rw [amtHere]
  have hopen : leads ("<TRNAMT>".toList) ('<' :: (g ++ untokT (g2 :: r2))) = true := by
    rw [show ("<TRNAMT>".toList) = '<' :: tagA from rfl, leads]
    simp only [beq_self_eq_true, Bool.true_and]
    rw [leads_seg tagA tagA_no_lt g _ hg (Or.inr ⟨_, hu⟩)]
    exact h1
  rw [if_pos hopen]
  have hdrop8 : ('<' :: (g ++ untokT (g2 :: r2))).drop 8 = g.drop 7 ++ untokT (g2 :: r2) := by
    rw [List.drop_succ_cons, List.drop_append_of_le_length hlg]
  rw [hdrop8]
  rw [takeWhile_ne_lt (g.drop 7) _ (fun c hc => hg c (List.drop_subset _ _ hc))
    (Or.inr ⟨_, hu⟩)]
  rw [dropWhile_ne_lt (g.drop 7) _ (fun c hc => hg c (List.drop_subset _ _ hc))
    (Or.inr ⟨_, hu⟩)]
  have hclose : leads ("</TRNAMT>".toList) (untokT (g2 :: r2)) = true := by
    rw [hu, show ("</TRNAMT>".toList) = '<' :: tagAc from rfl, leads]
    simp only [beq_self_eq_true, Bool.true_and]
    rw [leads_seg tagAc tagAc_no_lt g2 _ hg2 (untokT_shape r2)]
    exact h3
  have hbody : (g.drop 7).isEmpty = false := by
    cases hd : g.drop 7 with
    | nil => exact absurd hd h2
    | cons a l => rfl
  rw [if_pos (by rw [hbody, hclose]; rfl)]
  rw [hu, List.drop_succ_cons, List.drop_append_of_le_length hlg2]

theorem amtHere_seg_miss (g : List Char) (segs : List (List Char))
    (hg : ∀ c ∈ g, c ≠ '<') (hok : segsOk segs) (hmiss : amtSegHit g segs = false) :
    amtHere ('<' :: (g ++ untokT segs)) = none := by
  by_cases h1 : leads tagA g = true
  · have hlg : 7 ≤ g.length := by
      have := leads_length h1
      simpa [tagA] using this
    rw [amtHere]
    have hopen : leads ("<TRNAMT>".toList) ('<' :: (g ++ untokT segs)) = true := by
      rw [show ("<TRNAMT>".toList) = '<' :: tagA from rfl, leads]
      simp only [beq_self_eq_true, Bool.true_and]
      rw [leads_seg tagA tagA_no_lt g _ hg (untokT_shape segs)]
      exact h1
    rw [if_pos hopen]
    have hdrop8 : ('<' :: (g ++ untokT segs)).drop 8 = g.drop 7 ++ untokT segs := by
      rw [List.drop_succ_cons, List.drop_append_of_le_length hlg]
    rw [hdrop8]
    rw [takeWhile_ne_lt (g.drop 7) _ (fun c hc => hg c (List.drop_subset _ _ hc))
      (untokT_shape segs)]
    rw [dropWhile_ne_lt (g.drop 7) _ (fun c hc => hg c (List.drop_subset _ _ hc))
      (untokT_shape segs)]
    by_cases h2 : (g.drop 7).isEmpty = true
    · rw [if_neg (by rw [h2]; simp)]
    · cases segs with
      | nil =>
        rw [if_neg (by
          rw [show leads ("</TRNAMT>".toList) (untokT []) = false from rfl]
          simp)]
      | cons g2 r2 =>
        have h3 : leads tagAc g2 = false := by
          rw [amtSegHit] at hmiss
          simp only [Bool.and_eq_false_iff] at hmiss
          rcases hmiss with (hm | hm) | hm
          · rw [hm] at h1; cases h1
          · exfalso
            have hie : (g.drop 7).isEmpty = true := by
              cases hie2 : (g.drop 7).isEmpty
              · rw [hie2] at hm; cases hm
              · rfl
            exact h2 hie
          · rw [nextLeads] at hm; exact hm
        have hclose : leads ("</TRNAMT>".toList) (untokT (g2 :: r2)) = false := by
          rw [show untokT (g2 :: r2) = '<' :: (g2 ++ untokT r2) from rfl,
            show ("</TRNAMT>".toList) = '<' :: tagAc from rfl, leads]
          simp only [beq_self_eq_true, Bool.true_and]
          rw [leads_seg tagAc tagAc_no_lt g2 _ ((segsOk_cons hok).1) (untokT_shape r2)]
          exact h3
        rw [if_neg (by rw [hclose]; simp)]
  · rw [amtHere]
    rw [if_neg (by
      rw [show ("<TRNAMT>".toList) = '<' :: tagA from rfl, leads]
      simp only [beq_self_eq_true, Bool.true_and]
      rw [leads_seg tagA tagA_no_lt g _ hg (untokT_shape segs)]
      exact h1)]

theorem leads_nil_false (a : Char) (p : List Char) : leads (a :: p) [] = false := rfl

theorem amtSegHit_closeSeg (g2 : List Char) (r2 : List (List Char)) (h3 : leads tagAc g2 = true) :
    amtSegHit g2 r2 = false := by
  cases g2 with
  | nil =>
    exfalso
    have hfa : leads tagAc ([] : List Char) = false := rfl
    rw [hfa] at h3
    cases h3
  | cons c t =>
    have h3c : leads ('/' :: ("TRNAMT>".toList)) (c :: t) = true := h3
    have hc : ('/' : Char) = c := leads_head h3c
    rw [amtSegHit]
    rw [show tagA = 'T' :: ("RNAMT>".toList) from rfl]
    rw [leads_head_ne (by rw [← hc]; decide)]
    rfl

theorem subAmtGo_seg :
    ∀ (f : ℕ) (segs : List (List Char)), segsOk segs → (untokT segs).length ≤ f →
      subAmtGo f (untokT segs) = (mapAmtSegs segs).map untokT := by
  intro f
  induction f using Nat.strong_induction_on with
  | _ f ih =>
    intro segs hok hlen
    cases segs with
    | nil => simp [untokT, subAmtGo, mapAmtSegs]
    | cons g rest =>
      obtain ⟨hg, hokr⟩ := segsOk_cons hok
      rw [show untokT (g :: rest) = '<' :: (g ++ untokT rest) from rfl] at hlen ⊢
      cases f with
      | zero => simp at hlen
      | succ f1 =>
        have hlen1 : (g ++ untokT rest).length ≤ f1 := by simpa using hlen
        rw [subAmtGo]
        by_cases hhit : amtSegHit g rest = true
        · obtain ⟨h1, h2, g2, r2, rfl, h3⟩ := amtSegHit_elim hhit
          obtain ⟨hg2, hokr2⟩ := segsOk_cons hokr
          simp only [amtHere_seg_hit g g2 r2 hg hg2 h1 h2 h3]
          rw [mapAmtSegs, if_pos hhit]
          cases hparse : pyParse (g.drop 7) with
          | none => simp only [reverse_amount, hparse, Option.map_none']
          | some x =>
            simp only [reverse_amount, hparse, Option.map_some']
            have hlen2 : (g2.drop 8 ++ untokT r2).length ≤ f1 := by
              rw [show untokT (g2 :: r2) = '<' :: (g2 ++ untokT r2) from rfl] at hlen1
              simp only [List.length_append, List.length_cons, List.length_drop] at hlen1 ⊢
              omega
            rw [subAmtGo_copy (g2.drop 8) (untokT r2) f1
              (fun c hc => hg2 c (List.drop_subset _ _ hc)) hlen2]
            rw [ih (f1 - (g2.drop 8).length) (by omega) r2 hokr2 (by
              simp only [List.length_append] at hlen2
              omega)]
            rw [mapAmtSegs, if_neg (by rw [amtSegHit_closeSeg g2 r2 h3]; simp)]
            have hg2eq : g2 = tagAc ++ g2.drop 8 := by
              have := leads_take_drop tagAc g2 h3
              simpa [tagAc] using this
            cases hmr : mapAmtSegs r2 with
            | none => rfl
            | some t =>
              simp only [Option.map_some', Option.some.injEq]
              rw [show untokT ((tagA ++ pyRepr (pyNeg x)) :: g2 :: t) =
                '<' :: (tagA ++ pyRepr (pyNeg x) ++ ('<' :: (g2 ++ untokT t))) from by
                  simp [untokT, List.append_assoc]]
              conv_rhs => rw [hg2eq]
              rw [show ("<TRNAMT>".toList) = '<' :: tagA from rfl,
                show ("</TRNAMT>".toList) = '<' :: tagAc from rfl]
              simp [List.append_assoc]
        · have hhitf : amtSegHit g rest = false := by
            cases hb : amtSegHit g rest
            · rfl
            · exact absurd hb hhit
          simp only [amtHere_seg_miss g rest hg hokr hhitf]
          rw [mapAmtSegs, if_neg (by rw [hhitf]; simp)]
          rw [subAmtGo_copy g (untokT rest) f1 hg hlen1]
          rw [ih (f1 - g.length) (by omega) rest hokr (by
            simp only [List.length_append] at hlen1
            omega)]
          cases mapAmtSegs rest <;> simp [untokT]

theorem findAmtsGo_seg :
    ∀ (f : ℕ) (segs : List (List Char)), segsOk segs → (untokT segs).length ≤ f →
      findAmtsGo f (untokT segs) = amtContentsSegs segs := by
  intro f
  induction f using Nat.strong_induction_on with
  | _ f ih =>
    intro segs hok hlen
    cases segs with
    | nil => simp [untokT, findAmtsGo, amtContentsSegs]
    | cons g rest =>
      obtain ⟨hg, hokr⟩ := segsOk_cons hok
      rw [show untokT (g :: rest) = '<' :: (g ++ untokT rest) from rfl] at hlen ⊢
      cases f with
      | zero => simp at hlen
      | succ f1 =>
        have hlen1 : (g ++ untokT rest).length ≤ f1 := by simpa using hlen
        rw [findAmtsGo]
        by_cases hhit : amtSegHit g rest = true
        · obtain ⟨h1, h2, g2, r2, rfl, h3⟩ := amtSegHit_elim hhit
          obtain ⟨hg2, hokr2⟩ := segsOk_cons hokr
          simp only [amtHere_seg_hit g g2 r2 hg hg2 h1 h2 h3]
          rw [amtContentsSegs, if_pos hhit]
          have hlen2 : (g2.drop 8 ++ untokT r2).length ≤ f1 := by
            rw [show untokT (g2 :: r2) = '<' :: (g2 ++ untokT r2) from rfl] at hlen1
            simp only [List.length_append, List.length_cons, List.length_drop] at hlen1 ⊢
            omega
          rw [findAmtsGo_copy (g2.drop 8) (untokT r2) f1
            (fun c hc => hg2 c (List.drop_subset _ _ hc)) hlen2]
          rw [ih (f1 - (g2.drop 8).length) (by omega) r2 hokr2 (by
            simp only [List.length_append] at hlen2
            omega)]
          rw [amtContentsSegs, if_neg (by rw [amtSegHit_closeSeg g2 r2 h3]; simp)]
        · have hhitf : amtSegHit g rest = false := by
            cases hb : amtSegHit g rest
            · rfl
            · exact absurd hb hhit
          simp only [amtHere_seg_miss g rest hg hokr hhitf]
          rw [amtContentsSegs, if_neg (by rw [hhitf]; simp)]
          rw [findAmtsGo_copy g (untokT rest) f1 hg hlen1]
          exact ih (f1 - g.length) (by omega) rest hokr (by
            simp only [List.length_append] at hlen1
            omega)

theorem leads_lit_seg (pa pb : List Char) (hpa : ∀ c ∈ pa, c ≠ '<') :
    ∀ (g u : List Char), (∀ c ∈ g, c ≠ '<') → (u = [] ∨ ∃ v, u = '<' :: v) →
      leads (pa ++ '<' :: pb) (g ++ u) = (decide (g = pa) && leads ('<' :: pb) u) := by
  induction pa with
  | nil =>
    intro g u hg hu
    cases g with
    | nil => simp
    | cons b g2 =>
      simp only [List.nil_append, List.cons_append]
      rw [leads_head_ne (fun h => (hg b (by simp)) h.symm)]
      rw [show (decide ((b :: g2 : List Char) = [])) = false from by simp]
      simp
  | cons a pa2 ih =>
    intro g u hg hu
    cases g with
    | nil =>
      simp only [List.cons_append, List.nil_append]
      have hlhs : leads (a :: (pa2 ++ '<' :: pb)) u = false := by
        rcases hu with rfl | ⟨v, rfl⟩
        · rfl
        · exact leads_head_ne (hpa a (by simp))
      rw [hlhs]
      rw [show (decide (([] : List Char) = a :: pa2)) = false from by simp]
      simp
    | cons b g2 =>
      simp only [List.cons_append]
      by_cases hab : a = b
      · subst hab
        rw [leads]
        simp only [beq_self_eq_true, Bool.true_and]
        rw [ih (fun c hc => hpa c (by simp [hc])) g2 u (fun c hc => hg c (by simp [hc])) hu]
        rw [show (decide ((a :: g2 : List Char) = a :: pa2)) = decide (g2 = pa2) from by
          simp [List.cons.injEq]]
      · rw [leads]
        rw [show (a == b) = false from by simp [hab]]
        rw [show (decide ((b :: g2 : List Char) = a :: pa2)) = false from by
          apply decide_eq_false
          intro h
          injection h with h1 _
          exact hab h1.symm]
        simp

theorem nextLeads_untok (pb : List Char) (hpb : ∀ c ∈ pb, c ≠ '<')
    (rest : List (List Char)) (hok : segsOk rest) :
    leads ('<' :: pb) (untokT rest) = nextLeads pb rest := by
  cases rest with
  | nil => rfl
  | cons g2 r2 =>
    rw [show untokT (g2 :: r2) = '<' :: (g2 ++ untokT r2) from rfl, leads]
    simp only [beq_self_eq_true, Bool.true_and]
    rw [leads_seg pb hpb g2 _ ((segsOk_cons hok).1) (untokT_shape r2)]
    rfl

theorem litSegHit_closeSeg (pa pb : List Char) (g2 : List Char) (r2 : List (List Char))
    (hdiff : ∀ t, leads pb t = true → t ≠ pa) (h3 : leads pb g2 = true) :
    litSegHit pa pb g2 r2 = false := by
  rw [litSegHit]
  rw [show (decide (g2 = pa)) = false from decide_eq_false (hdiff g2 h3)]
  rfl

theorem subLitGo_seg (pa pb ra : List Char)
    (hpa : ∀ c ∈ pa, c ≠ '<') (hpb : ∀ c ∈ pb, c ≠ '<') (hra : ∀ c ∈ ra, c ≠ '<')
    (hdiff : ∀ t, leads pb t = true → t ≠ pa) :
    ∀ (f : ℕ) (segs : List (List Char)), segsOk segs → (untokT segs).length ≤ f →
      subLitGo ('<' :: (pa ++ '<' :: pb)) ('<' :: (ra ++ '<' :: pb)) f (untokT segs) =
        untokT (mapLitSegs pa pb ra segs) := by
  intro f
  induction f using Nat.strong_induction_on with
  | _ f ih =>
    intro segs hok hlen
    cases segs with
    | nil => simp [untokT, subLitGo, mapLitSegs]
    | cons g rest =>
      obtain ⟨hg, hokr⟩ := segsOk_cons hok
      rw [show untokT (g :: rest) = '<' :: (g ++ untokT rest) from rfl] at hlen ⊢
      cases f with
      | zero => simp at hlen
      | succ f1 =>
        have hlen1 : (g ++ untokT rest).length ≤ f1 := by simpa using hlen
        rw [subLitGo]
        have hleadeq : leads ('<' :: (pa ++ '<' :: pb)) ('<' :: (g ++ untokT rest)) =
            litSegHit pa pb g rest := by
          rw [leads]
          simp only [beq_self_eq_true, Bool.true_and]
          rw [leads_lit_seg pa pb hpa g _ hg (untokT_shape rest)]
          rw [nextLeads_untok pb hpb rest hokr]
          rfl
        by_cases hhit : litSegHit pa pb g rest = true
        · rw [hleadeq, if_pos hhit]
          have hgpa : g = pa := by
            rw [litSegHit, Bool.and_eq_true, decide_eq_true_eq] at hhit
            exact hhit.1
          obtain ⟨g2, r2, rfl, h3⟩ : ∃ g2 r2, rest = g2 :: r2 ∧ leads pb g2 = true := by
            rw [litSegHit, Bool.and_eq_true] at hhit
            cases rest with
            | nil => exact absurd hhit.2 (by rw [nextLeads]; simp)
            | cons g2 r2 => exact ⟨g2, r2, rfl, hhit.2⟩
          obtain ⟨hg2, hokr2⟩ := segsOk_cons hokr
          have hlg2 : pb.length ≤ g2.length := leads_length h3
          have hdropeq : (g ++ untokT (g2 :: r2)).drop
              (('<' :: (pa ++ '<' :: pb)).length - 1) = g2.drop pb.length ++ untokT r2 := by
            subst hgpa
            rw [show untokT (g2 :: r2) = '<' :: (g2 ++ untokT r2) from rfl]
            rw [show ('<' :: (g ++ '<' :: pb)).length - 1 = g.length + (pb.length + 1) by
              simp]
            rw [List.drop_append]
            rw [List.drop_succ_cons, List.drop_append_of_le_length hlg2]
          rw [hdropeq]
          rw [subLitGo_copy _ _ (pa ++ '<' :: pb) rfl (g2.drop pb.length) (untokT r2) f1
            (fun c hc => hg2 c (List.drop_subset _ _ hc)) (by
              rw [show untokT (g2 :: r2) = '<' :: (g2 ++ untokT r2) from rfl] at hlen1
              simp only [List.length_append, List.length_cons, List.length_drop] at hlen1 ⊢
              omega)]
          rw [ih (f1 - (g2.drop pb.length).length) (by omega) r2 hokr2 (by
            rw [show untokT (g2 :: r2) = '<' :: (g2 ++ untokT r2) from rfl] at hlen1
            simp only [List.length_append, List.length_cons, List.length_drop] at hlen1 ⊢
            omega)]
          rw [mapLitSegs, if_pos hhit]
          rw [mapLitSegs, if_neg (by rw [litSegHit_closeSeg pa pb g2 r2 hdiff h3]; simp)]
          have hg2eq : g2 = pb ++ g2.drop pb.length := leads_take_drop pb g2 h3
          rw [show untokT (ra :: g2 :: mapLitSegs pa pb ra r2) =
            '<' :: (ra ++ ('<' :: (g2 ++ untokT (mapLitSegs pa pb ra r2)))) from by
              simp [untokT]]
          conv_rhs => rw [hg2eq]
          simp [List.append_assoc]
        · have hhitf : litSegHit pa pb g rest = false := by
            cases hb : litSegHit pa pb g rest
            · rfl
            · exact absurd hb hhit
          rw [hleadeq, if_neg (by rw [hhitf]; simp)]
          rw [subLitGo_copy _ _ (pa ++ '<' :: pb) rfl g (untokT rest) f1 hg hlen1]
          rw [ih (f1 - g.length) (by omega) rest hokr (by
            simp only [List.length_append] at hlen1
            omega)]
          rw [mapLitSegs, if_neg (by rw [hhitf]; simp)]
          simp [untokT]

theorem countLitGo_seg (pa : List Char) (hpa : ∀ c ∈ pa, c ≠ '<') :
    ∀ (f : ℕ) (segs : List (List Char)), segsOk segs → (untokT segs).length ≤ f →
      countLitGo ('<' :: pa) f (untokT segs) = countSegs pa segs := by
  intro f
  induction f using Nat.strong_induction_on with
  | _ f ih =>
    intro segs hok hlen
    cases segs with
    | nil => simp [untokT, countLitGo, countSegs]
    | cons g rest =>
      obtain ⟨hg, hokr⟩ := segsOk_cons hok
      rw [show untokT (g :: rest) = '<' :: (g ++ untokT rest) from rfl] at hlen ⊢
      cases f with
      | zero => simp at hlen
      | succ f1 =>
        have hlen1 : (g ++ untokT rest).length ≤ f1 := by simpa using hlen
        rw [countLitGo]
        have hleadeq : leads ('<' :: pa) ('<' :: (g ++ untokT rest)) = leads pa g := by
          rw [leads]
          simp only [beq_self_eq_true, Bool.true_and]
          exact leads_seg pa hpa g _ hg (untokT_shape rest)
        rw [countSegs]
        by_cases hhit : leads pa g = true
        · rw [hleadeq, if_pos hhit, hhit, if_pos rfl]
          have hlg : pa.length ≤ g.length := leads_length hhit
          rw [show ('<' :: pa).length - 1 = pa.length by simp]
          rw [List.drop_append_of_le_length hlg]
          rw [countLitGo_copy _ pa rfl (g.drop pa.length) (untokT rest) f1
            (fun c hc => hg c (List.drop_subset _ _ hc)) (by
              simp only [List.length_append, List.length_drop] at hlen1 ⊢
              omega)]
          rw [ih (f1 - (g.drop pa.length).length) (by omega) rest hokr (by
            simp only [List.length_append, List.length_drop] at hlen1 ⊢
            omega)]
        · have hhitf : leads pa g = false := by
            cases hb : leads pa g
            · rfl
            · exact absurd hb hhit
          rw [hleadeq, if_neg (by rw [hhitf]; simp), hhitf]
          rw [if_neg (by simp)]
          rw [countLitGo_copy _ pa rfl g (untokT rest) f1 hg hlen1]
          rw [ih (f1 - g.length) (by omega) rest hokr (by
            simp only [List.length_append] at hlen1
            omega)]
          omega

theorem dropWhile_head_false (p : Char → Bool) :
    ∀ (l : List Char) (c : Char) (t : List Char), l.dropWhile p = c :: t → p c = false := by
  intro l
  induction l with
  | nil => intro c t h; cases h
  | cons a l ih =>
    intro c t h
    rw [List.dropWhile_cons] at h
    by_cases hpa : p a
    · rw [if_pos hpa] at h
      exact ih c t h
    · rw [if_neg hpa] at h
      injection h with h1 _
      subst h1
      cases hq : p a
      · rfl
      · exact absurd hq hpa

theorem split_exists (s : List Char) :
    ∃ (h : List Char) (segs : List (List Char)),
      (∀ c ∈ h, c ≠ '<') ∧ segsOk segs ∧ s = h ++ untokT segs := by
  suffices key : ∀ (n : ℕ) (s : List Char), s.length ≤ n →
      ∃ (h : List Char) (segs : List (List Char)),
        (∀ c ∈ h, c ≠ '<') ∧ segsOk segs ∧ s = h ++ untokT segs by
    exact key s.length s le_rfl
  intro n
  induction n with
  | zero =>
    intro s hl
    have : s = [] := List.length_eq_zero.mp (Nat.le_zero.mp hl)
    subst this
    exact ⟨[], [], by simp, by intro g hg; simp at hg, rfl⟩
  | succ n ihn =>
    intro s hl
    have hsplit : s.takeWhile (fun c => c != '<') ++ s.dropWhile (fun c => c != '<') = s :=
      List.takeWhile_append_dropWhile _ _
    have hh : ∀ c ∈ s.takeWhile (fun c => c != '<'), c ≠ '<' := by
      intro c hc
      have := List.mem_takeWhile_imp hc
      simpa [bne_iff_ne] using this
    cases hrest : s.dropWhile (fun c => c != '<') with
    | nil =>
      have hhs : s.takeWhile (fun c => c != '<') = s := by
        have h2 := hsplit
        rw [hrest, List.append_nil] at h2
        exact h2
      exact ⟨s.takeWhile (fun c => c != '<'), [], hh, by intro g hg; simp at hg, by
        rw [show untokT [] = [] from rfl, List.append_nil, hhs]⟩
    | cons c t =>
      have hc : c = '<' := by
        have := dropWhile_head_false _ s c t hrest
        simpa [bne_iff_ne] using this
      subst hc
      have hlt : t.length ≤ n := by
        have hlen := congrArg List.length hsplit
        rw [hrest] at hlen
        simp only [List.length_append, List.length_cons] at hlen
        omega
      obtain ⟨h2, segs2, hh2, hok2, heq2⟩ := ihn t hlt
      refine ⟨s.takeWhile (fun c => c != '<'), h2 :: segs2, hh, ?_, ?_⟩
      · intro g hg
        rcases List.mem_cons.mp hg with rfl | hg
        · exact hh2
        · exact hok2 g hg
      · rw [show untokT (h2 :: segs2) = '<' :: (h2 ++ untokT segs2) from rfl]
        rw [← heq2, ← hrest, hsplit]

theorem mapLitSegs_ok (pa pb ra : List Char) (hra : ∀ c ∈ ra, c ≠ '<') :
    ∀ (segs : List (List Char)), segsOk segs → segsOk (mapLitSegs pa pb ra segs) := by
  intro segs
  induction segs with
  | nil => intro _; intro g hg; simp [mapLitSegs] at hg
  | cons g rest ih =>
    intro hok
    obtain ⟨hg, hokr⟩ := segsOk_cons hok
    rw [mapLitSegs]
    intro g2 hg2
    rcases List.mem_cons.mp hg2 with rfl | hg2
    · split
      · exact hra
      · exact hg
    · exact ih hokr g2 hg2

theorem pyRepr_ne_nil (x : PyFloat) : pyRepr x ≠ [] := by
  simp only [pyRepr]
  split
  · simp
  · split
    · split
      · simp
      · split <;> simp
    · simp

theorem convSegs_ok :
    ∀ (segs t : List (List Char)), segsOk segs → convSegs segs = some t → segsOk t := by
  intro segs
  induction segs with
  | nil =>
    intro t _ h
    rw [convSegs, Option.some.injEq] at h
    subst h
    intro g hg
    simp at hg
  | cons g rest ih =>
    intro t hok h
    obtain ⟨hg, hokr⟩ := segsOk_cons hok
    rw [convSegs] at h
    split at h
    · obtain ⟨t2, ht2, rfl⟩ := Option.map_eq_some'.mp h
      intro g2 hg2
      rcases List.mem_cons.mp hg2 with rfl | hg2
      · decide
      · exact ih t2 hokr ht2 g2 hg2
    · split at h
      · obtain ⟨t2, ht2, rfl⟩ := Option.map_eq_some'.mp h
        intro g2 hg2
        rcases List.mem_cons.mp hg2 with rfl | hg2
        · decide
        · exact ih t2 hokr ht2 g2 hg2
      · split at h
        · split at h
          · obtain ⟨t2, ht2, rfl⟩ := Option.map_eq_some'.mp h
            intro g2 hg2
            rcases List.mem_cons.mp hg2 with rfl | hg2
            · intro c hc
              rcases List.mem_append.mp hc with hc | hc
              · exact tagA_no_lt c hc
              · exact pyRepr_ne_lt _ c hc
            · exact ih t2 hokr ht2 g2 hg2
          · cases h
        · obtain ⟨t2, ht2, rfl⟩ := Option.map_eq_some'.mp h
          intro g2 hg2
          rcases List.mem_cons.mp hg2 with rfl | hg2
          · exact hg
          · exact ih t2 hokr ht2 g2 hg2

theorem litSegHit_ne (pa pb g : List Char) (h : decide (g = pa) = false)
    (next : List (List Char)) : litSegHit pa pb g next = false := by
  rw [litSegHit, h, Bool.false_and]

theorem amtSegHit_notTag (g : List Char) (h : leads tagA g = false)
    (next : List (List Char)) : amtSegHit g next = false := by
  rw [amtSegHit, h, Bool.false_and, Bool.false_and]

theorem nextLeads_mapLit (pa pb ra t : List Char) (h1 : leads t pa = false)
    (h2 : leads t ra = false) :
    ∀ l, nextLeads t (mapLitSegs pa pb ra l) = nextLeads t l := by
  intro l
  cases l with
  | nil => rfl
  | cons g r =>
    rw [mapLitSegs]
    by_cases hit : litSegHit pa pb g r = true
    · rw [if_pos hit]
      have hg : g = pa := by
        rw [litSegHit, Bool.and_eq_true, decide_eq_true_eq] at hit
        exact hit.1
      show leads t ra = leads t g
      rw [h2, hg, h1]
    · rw [if_neg hit]
      rfl

theorem convSegs_eq (segs : List (List Char)) :
    mapAmtSegs (mapLitSegs intuA intuAc intuA2 (mapLitSegs fidA fidAc fidA2 segs)) =
      convSegs segs := by
  induction segs with
  | nil => rfl
  | cons g rest ih =>
    by_cases hf : litSegHit fidA fidAc g rest = true
    · have hg2 : ¬ litSegHit intuA intuAc fidA2 (mapLitSegs fidA fidAc fidA2 rest) = true := by
        rw [litSegHit_ne _ _ _ (by decide)]
        exact Bool.false_ne_true
      have hg3 : ¬ amtSegHit fidA2
          (mapLitSegs intuA intuAc intuA2 (mapLitSegs fidA fidAc fidA2 rest)) = true := by
        rw [amtSegHit_notTag _ (by decide)]
        exact Bool.false_ne_true
      rw [mapLitSegs, if_pos hf, mapLitSegs, if_neg hg2, mapAmtSegs, if_neg hg3, ih,
        convSegs, if_pos hf]
    · by_cases hi : litSegHit intuA intuAc g rest = true
      · have hnl : nextLeads intuAc (mapLitSegs fidA fidAc fidA2 rest) = nextLeads intuAc rest :=
          nextLeads_mapLit _ _ _ _ (by decide) (by decide) rest
        have hi2 : litSegHit intuA intuAc g (mapLitSegs fidA fidAc fidA2 rest) = true := by
          rw [litSegHit, hnl]
          rw [litSegHit] at hi
          exact hi
        have hg3 : ¬ amtSegHit intuA2
            (mapLitSegs intuA intuAc intuA2 (mapLitSegs fidA fidAc fidA2 rest)) = true := by
          rw [amtSegHit_notTag _ (by decide)]
          exact Bool.false_ne_true
        rw [mapLitSegs, if_neg hf, mapLitSegs, if_pos hi2, mapAmtSegs, if_neg hg3, ih,
          convSegs, if_neg hf, if_pos hi]
      · have hnl : nextLeads intuAc (mapLitSegs fidA fidAc fidA2 rest) = nextLeads intuAc rest :=
          nextLeads_mapLit _ _ _ _ (by decide) (by decide) rest
        have hi2 : ¬ litSegHit intuA intuAc g (mapLitSegs fidA fidAc fidA2 rest) = true := by
          intro hcon
          apply hi
          rw [litSegHit] at hcon ⊢
          rw [hnl] at hcon
          exact hcon
        have hamt : amtSegHit g (mapLitSegs intuA intuAc intuA2 (mapLitSegs fidA fidAc fidA2 rest)) =
            amtSegHit g rest := by
          rw [amtSegHit, amtSegHit,
            nextLeads_mapLit intuA intuAc intuA2 tagAc (by decide) (by decide) _,
            nextLeads_mapLit fidA fidAc fidA2 tagAc (by decide) (by decide) rest]
        rw [mapLitSegs, if_neg hf, mapLitSegs, if_neg hi2, mapAmtSegs, hamt,
          convSegs, if_neg hf, if_neg hi]
        by_cases ha : amtSegHit g rest = true
        · simp only [if_pos ha]
          cases hp : pyParse (g.drop 7) <;> simp only [hp, ih]
        · simp only [if_neg ha, ih]

theorem subLit_split (pa pb ra : List Char)
    (hpa : ∀ c ∈ pa, c ≠ '<') (hpb : ∀ c ∈ pb, c ≠ '<') (hra : ∀ c ∈ ra, c ≠ '<')
    (hdiff : ∀ t, leads pb t = true → t ≠ pa)
    (h : List Char) (segs : List (List Char))
    (hh : ∀ c ∈ h, c ≠ '<') (hok : segsOk segs) :
    subLit ('<' :: (pa ++ '<' :: pb)) ('<' :: (ra ++ '<' :: pb)) (h ++ untokT segs) =
      h ++ untokT (mapLitSegs pa pb ra segs) := by
  rw [subLit, subLitGo_copy _ _ (pa ++ '<' :: pb) rfl h (untokT segs) _ hh le_rfl]
  congr 1
  rw [show (h ++ untokT segs).length - h.length = (untokT segs).length by simp]
  exact subLitGo_seg pa pb ra hpa hpb hra hdiff _ segs hok le_rfl

theorem subAmt_split (h : List Char) (segs : List (List Char))
    (hh : ∀ c ∈ h, c ≠ '<') (hok : segsOk segs) :
    subAmt (h ++ untokT segs) = (mapAmtSegs segs).map (fun t => h ++ untokT t) := by
  rw [subAmt, subAmtGo_copy h (untokT segs) _ hh le_rfl]
  rw [show (h ++ untokT segs).length - h.length = (untokT segs).length by simp]
  rw [subAmtGo_seg _ segs hok le_rfl]
  cases mapAmtSegs segs <;> simp

theorem findAmts_split (h : List Char) (segs : List (List Char))
    (hh : ∀ c ∈ h, c ≠ '<') (hok : segsOk segs) :
    findAmts (h ++ untokT segs) = amtContentsSegs segs := by
  rw [findAmts, findAmtsGo_copy h (untokT segs) _ hh le_rfl,
    show (h ++ untokT segs).length - h.length = (untokT segs).length by simp,
    findAmtsGo_seg _ segs hok le_rfl]

theorem countLit_split (pa : List Char) (hpa : ∀ c ∈ pa, c ≠ '<')
    (h : List Char) (segs : List (List Char))
    (hh : ∀ c ∈ h, c ≠ '<') (hok : segsOk segs) :
    countLit ('<' :: pa) (h ++ untokT segs) = countSegs pa segs := by
  rw [countLit, countLitGo_copy _ pa rfl h (untokT segs) _ hh le_rfl,
    show (h ++ untokT segs).length - h.length = (untokT segs).length by simp,
    countLitGo_seg pa hpa _ segs hok le_rfl]

theorem convert_qfx_seg (h : List Char) (segs : List (List Char))
    (hh : ∀ c ∈ h, c ≠ '<') (hok : segsOk segs) :
    convert_qfx (h ++ untokT segs) = (convSegs segs).map (fun t => h ++ untokT t) := by
  have hok1 : segsOk (mapLitSegs fidA fidAc fidA2 segs) :=
    mapLitSegs_ok fidA fidAc fidA2 (by decide) segs hok
  have hok2 : segsOk (mapLitSegs intuA intuAc intuA2 (mapLitSegs fidA fidAc fidA2 segs)) :=
    mapLitSegs_ok intuA intuAc intuA2 (by decide) _ hok1
  simp only [convert_qfx]
  rw [show ("<FID>12139</FID>".toList : List Char) = '<' :: (fidA ++ '<' :: fidAc) by decide,
    show ("<FID>10898</FID>".toList : List Char) = '<' :: (fidA2 ++ '<' :: fidAc) by decide,
    show ("<INTU.BID>12139</INTU.BID>".toList : List Char) = '<' :: (intuA ++ '<' :: intuAc)
      by decide,
    show ("<INTU.BID>10898</INTU.BID>".toList : List Char) = '<' :: (intuA2 ++ '<' :: intuAc)
      by decide]
  rw [subLit_split fidA fidAc fidA2 (by decide) (by decide) (by decide)
    (fun t ht heq => absurd (heq ▸ ht) (by decide)) h segs hh hok]
  rw [subLit_split intuA intuAc intuA2 (by decide) (by decide) (by decide)
    (fun t ht heq => absurd (heq ▸ ht) (by decide)) h _ hh hok1]
  rw [subAmt_split h _ hh hok2, convSegs_eq]

theorem countSegs_convSegs :
    ∀ (segs t : List (List Char)), convSegs segs = some t →
      countSegs stA t = countSegs stA segs := by
  intro segs
  induction segs with
  | nil =>
    intro t h
    rw [convSegs, Option.some.injEq] at h
    subst h
    rfl
  | cons g rest ih =>
    intro t h
    rw [convSegs] at h
    split at h
    · rename_i hf
      obtain ⟨t2, ht2, rfl⟩ := Option.map_eq_some'.mp h
      have hg : g = fidA := by
        rw [litSegHit, Bool.and_eq_true, decide_eq_true_eq] at hf
        exact hf.1
      rw [countSegs, countSegs, ih t2 ht2, hg,
        show leads stA fidA2 = false by decide, show leads stA fidA = false by decide]
    · split at h
      · rename_i hi
        obtain ⟨t2, ht2, rfl⟩ := Option.map_eq_some'.mp h
        have hg : g = intuA := by
          rw [litSegHit, Bool.and_eq_true, decide_eq_true_eq] at hi
          exact hi.1
        rw [countSegs, countSegs, ih t2 ht2, hg,
          show leads stA intuA2 = false by decide, show leads stA intuA = false by decide]
      · split at h
        · rename_i ha
          split at h
          · rename_i x hx
            obtain ⟨t2, ht2, rfl⟩ := Option.map_eq_some'.mp h
            have hlg : leads tagA g = true := by
              rw [amtSegHit, Bool.and_eq_true, Bool.and_eq_true] at ha
              exact ha.1.1
            obtain ⟨u, rfl⟩ := (leads_eq_true_iff tagA g).mp hlg
            rw [countSegs, countSegs, ih t2 ht2,
              show tagA ++ pyRepr (pyNeg x) = 'T' :: ("RNAMT>".toList ++ pyRepr (pyNeg x))
                from rfl,
              show tagA ++ u = 'T' :: ("RNAMT>".toList ++ u) from rfl,
              show stA = 'S' :: "TMTTRN>".toList from rfl,
              leads_head_ne (by decide), leads_head_ne (by decide)]
          · cases h
        · obtain ⟨t2, ht2, rfl⟩ := Option.map_eq_some'.mp h
          rw [countSegs, countSegs, ih t2 ht2]

theorem nextLeads_convSegs :
    ∀ (rest t : List (List Char)), convSegs rest = some t →
      nextLeads tagAc t = nextLeads tagAc rest := by
  intro rest t h
  cases rest with
  | nil =>
    rw [convSegs, Option.some.injEq] at h
    subst h
    rfl
  | cons g2 r2 =>
    rw [convSegs] at h
    split at h
    · rename_i hf
      obtain ⟨t2, ht2, rfl⟩ := Option.map_eq_some'.mp h
      have hg : g2 = fidA := by
        rw [litSegHit, Bool.and_eq_true, decide_eq_true_eq] at hf
        exact hf.1
      rw [hg]
      show leads tagAc fidA2 = leads tagAc fidA
      decide
    · split at h
      · rename_i hi
        obtain ⟨t2, ht2, rfl⟩ := Option.map_eq_some'.mp h
        have hg : g2 = intuA := by
          rw [litSegHit, Bool.and_eq_true, decide_eq_true_eq] at hi
          exact hi.1
        rw [hg]
        show leads tagAc intuA2 = leads tagAc intuA
        decide
      · split at h
        · rename_i ha
          split at h
          · rename_i x hx
            obtain ⟨t2, ht2, rfl⟩ := Option.map_eq_some'.mp h
            have hlg : leads tagA g2 = true := by
              rw [amtSegHit, Bool.and_eq_true, Bool.and_eq_true] at ha
              exact ha.1.1
            obtain ⟨u, rfl⟩ := (leads_eq_true_iff tagA g2).mp hlg
            show leads tagAc (tagA ++ pyRepr (pyNeg x)) = leads tagAc (tagA ++ u)
            rw [show tagA ++ pyRepr (pyNeg x) = 'T' :: ("RNAMT>".toList ++ pyRepr (pyNeg x))
                from rfl,
              show tagA ++ u = 'T' :: ("RNAMT>".toList ++ u) from rfl,
              show tagAc = '/' :: "TRNAMT>".toList from rfl,
              leads_head_ne (by decide), leads_head_ne (by decide)]
          · cases h
        · obtain ⟨t2, ht2, rfl⟩ := Option.map_eq_some'.mp h
          rfl

theorem amtContents_convSegs :
    ∀ (segs t : List (List Char)), convSegs segs = some t →
      ∃ xs, parseAll (amtContentsSegs segs) = some xs ∧
        amtContentsSegs t = xs.map (fun x => pyRepr (pyNeg x)) := by
  intro segs
  induction segs with
  | nil =>
    intro t h
    rw [convSegs, Option.some.injEq] at h
    subst h
    exact ⟨[], rfl, rfl⟩
  | cons g rest ih =>
    intro t h
    rw [convSegs] at h
    split at h
    · rename_i hf
      obtain ⟨t2, ht2, rfl⟩ := Option.map_eq_some'.mp h
      obtain ⟨xs, hxs, hmap⟩ := ih t2 ht2
      have hg : g = fidA := by
        rw [litSegHit, Bool.and_eq_true, decide_eq_true_eq] at hf
        exact hf.1
      have h1 : ¬ amtSegHit g rest = true := by
        rw [hg, amtSegHit_notTag _ (by decide)]
        exact Bool.false_ne_true
      have h2 : ¬ amtSegHit fidA2 t2 = true := by
        rw [amtSegHit_notTag _ (by decide)]
        exact Bool.false_ne_true
      exact ⟨xs, by rw [amtContentsSegs, if_neg h1]; exact hxs,
        by rw [amtContentsSegs, if_neg h2]; exact hmap⟩
    · split at h
      · rename_i hi
        obtain ⟨t2, ht2, rfl⟩ := Option.map_eq_some'.mp h
        obtain ⟨xs, hxs, hmap⟩ := ih t2 ht2
        have hg : g = intuA := by
          rw [litSegHit, Bool.and_eq_true, decide_eq_true_eq] at hi
          exact hi.1
        have h1 : ¬ amtSegHit g rest = true := by
          rw [hg, amtSegHit_notTag _ (by decide)]
          exact Bool.false_ne_true
        have h2 : ¬ amtSegHit intuA2 t2 = true := by
          rw [amtSegHit_notTag _ (by decide)]
          exact Bool.false_ne_true
        exact ⟨xs, by rw [amtContentsSegs, if_neg h1]; exact hxs,
          by rw [amtContentsSegs, if_neg h2]; exact hmap⟩
      · split at h
        · rename_i ha
          split at h
          · rename_i x hx
            obtain ⟨t2, ht2, rfl⟩ := Option.map_eq_some'.mp h
            obtain ⟨xs, hxs, hmap⟩ := ih t2 ht2
            have hdrop : (tagA ++ pyRepr (pyNeg x)).drop 7 = pyRepr (pyNeg x) := by
              rw [show (7 : ℕ) = tagA.length from rfl, List.drop_left]
            have hie : (pyRepr (pyNeg x)).isEmpty = false := by
              cases hr : pyRepr (pyNeg x) with
              | nil => exact absurd hr (pyRepr_ne_nil _)
              | cons a l => rfl
            have hnl : nextLeads tagAc t2 = true := by
              rw [nextLeads_convSegs rest t2 ht2]
              rw [amtSegHit, Bool.and_eq_true] at ha
              exact ha.2
            have hit2 : amtSegHit (tagA ++ pyRepr (pyNeg x)) t2 = true := by
              rw [amtSegHit, leads_self_app, hdrop, hie, hnl]
              rfl
            refine ⟨x :: xs, ?_, ?_⟩
            · rw [amtContentsSegs, if_pos ha]
              simp only [parseAll, hx, hxs, Option.map_some']
            · rw [amtContentsSegs, if_pos hit2, hdrop, hmap]
              rfl
          · cases h
        · rename_i ha
          obtain ⟨t2, ht2, rfl⟩ := Option.map_eq_some'.mp h
          obtain ⟨xs, hxs, hmap⟩ := ih t2 ht2
          have h2 : ¬ amtSegHit g t2 = true := by
            rw [amtSegHit, nextLeads_convSegs rest t2 ht2, ← amtSegHit]
            exact ha
          exact ⟨xs, by rw [amtContentsSegs, if_neg ha]; exact hxs,
            by rw [amtContentsSegs, if_neg h2]; exact hmap⟩

theorem parseAll_map_repr :
    ∀ (xs : List PyFloat), ∃ ys, parseAll (xs.map (fun x => pyRepr (pyNeg x))) = some ys ∧
      ys.length = xs.length ∧ ys.map PyFloat.val = xs.map (fun x => -(x.val)) := by
  intro xs
  induction xs with
  | nil => exact ⟨[], rfl, rfl, rfl⟩
  | cons x r ih =>
    obtain ⟨ys, hys, hlen, hval⟩ := ih
    obtain ⟨y, hy, hyval, hneg⟩ := pyParse_pyRepr (pyNeg x)
    refine ⟨y :: ys, ?_, ?_, ?_⟩
    · simp only [List.map_cons, parseAll, hy, hys, Option.map_some']
    · simp [hlen]
    · simp only [List.map_cons]
      rw [hyval, val_pyNeg, hval]

theorem extract_amounts (s : List Char) (es : KeyElements)
    (h : extract_key_elements s = some es) : parseAll (findAmts s) = some es.amounts := by
  simp only [extract_key_elements] at h
  split at h
  · rename_i amts hamts
    rw [Option.some.injEq] at h
    rw [hamts, ← h]
  · cases h

theorem extract_count (s : List Char) (es : KeyElements)
    (h : extract_key_elements s = some es) :
    es.transaction_count = countLit ("<STMTTRN>".toList) s := by
  simp only [extract_key_elements] at h
  split at h
  · rw [Option.some.injEq] at h
    rw [← h]
  · cases h

theorem frame_append_left (h0 : List Char) :
    ∀ (s t : List Char), Frame s t → Frame (h0 ++ s) (h0 ++ t) := by
  induction h0 with
  | nil => intro s t hf; exact hf
  | cons c h0 ih => intro s t hf; exact Frame.copy c _ _ (ih s t hf)

theorem convSegs_slash (w : List Char) (r2 t' : List (List Char))
    (h : convSegs (('/' :: w) :: r2) = some t') :
    ∃ t3, t' = ('/' :: w) :: t3 ∧ convSegs r2 = some t3 := by
  have hne1 : ('/' :: w : List Char) ≠ fidA := by
    intro hcon
    rw [show fidA = 'F' :: "ID>12139".toList from rfl] at hcon
    injection hcon with h1 _
    exact absurd h1 (by decide)
  have hne2 : ('/' :: w : List Char) ≠ intuA := by
    intro hcon
    rw [show intuA = 'I' :: "NTU.BID>12139".toList from rfl] at hcon
    injection hcon with h1 _
    exact absurd h1 (by decide)
  have hlt : leads tagA ('/' :: w) = false := by
    rw [show tagA = 'T' :: "RNAMT>".toList from rfl]
    exact leads_head_ne (by decide)
  rw [convSegs,
    if_neg (by rw [litSegHit_ne _ _ _ (decide_eq_false hne1)]; exact Bool.false_ne_true),
    if_neg (by rw [litSegHit_ne _ _ _ (decide_eq_false hne2)]; exact Bool.false_ne_true),
    if_neg (by rw [amtSegHit_notTag _ hlt]; exact Bool.false_ne_true)] at h
  obtain ⟨t3, ht3, rfl⟩ := Option.map_eq_some'.mp h
  exact ⟨t3, rfl, ht3⟩

theorem frame_untok :
    ∀ (n : ℕ) (segs t2 : List (List Char)), segs.length ≤ n → segsOk segs →
      convSegs segs = some t2 → Frame (untokT segs) (untokT t2) := by
  intro n
  induction n with
  | zero =>
    intro segs t2 hl _ h
    have hnil : segs = [] := List.length_eq_zero.mp (Nat.le_zero.mp hl)
    subst hnil
    rw [convSegs, Option.some.injEq] at h
    subst h
    exact Frame.nil
  | succ n ihn =>
    intro segs t2 hl hok h
    cases segs with
    | nil =>
      rw [convSegs, Option.some.injEq] at h
      subst h
      exact Frame.nil
    | cons g rest =>
      rw [convSegs] at h
      split at h
      · rename_i hf
        rw [litSegHit, Bool.and_eq_true, decide_eq_true_eq] at hf
        obtain ⟨rfl, hnext⟩ := hf
        cases rest with
        | nil => cases hnext
        | cons g2 r2 =>
          obtain ⟨g2', rfl⟩ := (leads_eq_true_iff fidAc g2).mp hnext
          obtain ⟨t2', ht2', rfl⟩ := Option.map_eq_some'.mp h
          obtain ⟨t3, rfl, ht3⟩ := convSegs_slash ("FID>".toList ++ g2') r2 t2' ht2'
          have hokr2 : segsOk r2 := fun gg hgg => hok gg (by simp [hgg])
          have hlr2 : r2.length ≤ n := by
            simp only [List.length_cons] at hl
            omega
          show Frame (untokT (fidA :: (fidAc ++ g2') :: r2))
            (untokT (fidA2 :: (fidAc ++ g2') :: t3))
          have e1 : untokT (fidA :: (fidAc ++ g2') :: r2) =
              ("<FID>12139</FID>".toList) ++ (g2' ++ untokT r2) := by
            rw [untokT, untokT,
              show ("<FID>12139</FID>".toList : List Char) = '<' :: (fidA ++ '<' :: fidAc)
                by decide]
            simp [List.append_assoc]
          have e2 : untokT (fidA2 :: (fidAc ++ g2') :: t3) =
              ("<FID>10898</FID>".toList) ++ (g2' ++ untokT t3) := by
            rw [untokT, untokT,
              show ("<FID>10898</FID>".toList : List Char) = '<' :: (fidA2 ++ '<' :: fidAc)
                by decide]
            simp [List.append_assoc]
          rw [e1, e2]
          exact Frame.span _ _ _ _ IsSpan.fid
            (frame_append_left g2' _ _ (ihn r2 t3 hlr2 hokr2 ht3))
      · split at h
        · rename_i hi
          rw [litSegHit, Bool.and_eq_true, decide_eq_true_eq] at hi
          obtain ⟨rfl, hnext⟩ := hi
          cases rest with
          | nil => cases hnext
          | cons g2 r2 =>
            obtain ⟨g2', rfl⟩ := (leads_eq_true_iff intuAc g2).mp hnext
            obtain ⟨t2', ht2', rfl⟩ := Option.map_eq_some'.mp h
            obtain ⟨t3, rfl, ht3⟩ := convSegs_slash ("INTU.BID>".toList ++ g2') r2 t2' ht2'
            have hokr2 : segsOk r2 := fun gg hgg => hok gg (by simp [hgg])
            have hlr2 : r2.length ≤ n := by
              simp only [List.length_cons] at hl
              omega
            show Frame (untokT (intuA :: (intuAc ++ g2') :: r2))
              (untokT (intuA2 :: (intuAc ++ g2') :: t3))
            have e1 : untokT (intuA :: (intuAc ++ g2') :: r2) =
                ("<INTU.BID>12139</INTU.BID>".toList) ++ (g2' ++ untokT r2) := by
              rw [untokT, untokT,
                show ("<INTU.BID>12139</INTU.BID>".toList : List Char) =
                  '<' :: (intuA ++ '<' :: intuAc) by decide]
              simp [List.append_assoc]
            have e2 : untokT (intuA2 :: (intuAc ++ g2') :: t3) =
                ("<INTU.BID>10898</INTU.BID>".toList) ++ (g2' ++ untokT t3) := by
              rw [untokT, untokT,
                show ("<INTU.BID>10898</INTU.BID>".toList : List Char) =
                  '<' :: (intuA2 ++ '<' :: intuAc) by decide]
              simp [List.append_assoc]
            rw [e1, e2]
            exact Frame.span _ _ _ _ IsSpan.intu
              (frame_append_left g2' _ _ (ihn r2 t3 hlr2 hokr2 ht3))
        · split at h
          · rename_i ha
            split at h
            · rename_i x hx
              rw [amtSegHit, Bool.and_eq_true, Bool.and_eq_true] at ha
              obtain ⟨⟨hlg, hbody⟩, hnext⟩ := ha
              obtain ⟨u, rfl⟩ := (leads_eq_true_iff tagA g).mp hlg
              have hdrop : (tagA ++ u).drop 7 = u := by
                rw [show (7 : ℕ) = tagA.length from rfl, List.drop_left]
              cases rest with
              | nil => cases hnext
              | cons g2 r2 =>
                obtain ⟨g2', rfl⟩ := (leads_eq_true_iff tagAc g2).mp hnext
                obtain ⟨t2', ht2', rfl⟩ := Option.map_eq_some'.mp h
                obtain ⟨t3, rfl, ht3⟩ := convSegs_slash ("TRNAMT>".toList ++ g2') r2 t2' ht2'
                have hokr2 : segsOk r2 := fun gg hgg => hok gg (by simp [hgg])
                have hlr2 : r2.length ≤ n := by
                  simp only [List.length_cons] at hl
                  omega
                have hune : u ≠ [] := by
                  intro hcon
                  rw [hdrop, hcon] at hbody
                  cases hbody
                have hult : ∀ c ∈ u, c ≠ '<' :=
                  fun c hc => hok (tagA ++ u) (by simp) c (List.mem_append_right _ hc)
                have hpu : pyParse u = some x := by
                  rw [hdrop] at hx
                  exact hx
                show Frame (untokT ((tagA ++ u) :: (tagAc ++ g2') :: r2))
                  (untokT ((tagA ++ pyRepr (pyNeg x)) :: (tagAc ++ g2') :: t3))
                have e1 : untokT ((tagA ++ u) :: (tagAc ++ g2') :: r2) =
                    ("<TRNAMT>".toList ++ u ++ "</TRNAMT>".toList) ++ (g2' ++ untokT r2) := by
                  rw [untokT, untokT,
                    show ("<TRNAMT>".toList : List Char) = '<' :: tagA by decide,
                    show ("</TRNAMT>".toList : List Char) = '<' :: tagAc by decide]
                  simp [List.append_assoc]
                have e2 : untokT ((tagA ++ pyRepr (pyNeg x)) :: (tagAc ++ g2') :: t3) =
                    ("<TRNAMT>".toList ++ pyRepr (pyNeg x) ++ "</TRNAMT>".toList) ++
                      (g2' ++ untokT t3) := by
                  rw [untokT, untokT,
                    show ("<TRNAMT>".toList : List Char) = '<' :: tagA by decide,
                    show ("</TRNAMT>".toList : List Char) = '<' :: tagAc by decide]
                  simp [List.append_assoc]
                rw [e1, e2]
                exact Frame.span _ _ _ _ (IsSpan.amt u x hune hult hpu)
                  (frame_append_left g2' _ _ (ihn r2 t3 hlr2 hokr2 ht3))
            · cases h
          · obtain ⟨t3, ht3, rfl⟩ := Option.map_eq_some'.mp h
            have hokr : segsOk rest := fun gg hgg => hok gg (by simp [hgg])
            have hlr : rest.length ≤ n := by
              simp only [List.length_cons] at hl
              omega
            exact frame_append_left ('<' :: g) _ _ (ihn rest t3 hlr hokr ht3)

theorem get_take_iff {α : Type} (x : α) :
    ∀ (l : List α) (n i : ℕ), (l.take n).get? i = some x ↔ i < n ∧ l.get? i = some x := by
  intro l
  induction l with
  | nil => intro n i; simp
  | cons a l ih =>
    intro n i
    cases n with
    | zero => simp
    | succ n =>
      cases i with
      | zero => simp [List.take_succ_cons]
      | succ i =>
        simp only [List.take_succ_cons, List.get?_cons_succ, ih n i, Nat.succ_lt_succ_iff]

set_option maxRecDepth 40000 in
/-- Claim C1 fails on the standalone script `verify_conversion.py`: that
script slices both amount lists to their first five elements before its
sign loop, so on a pair of documents with six amounts each — the first
five negated, the sixth carried unchanged — it computes all four checks
as passed and overall success `True`, although at position 5 of the two
(equal-length) amount sequences the sum `1.0 + 1.0` exceeds the tolerance,
so the claimed elementwise check over the shorter sequence is false. -/
theorem claim_C1_counterexample :
    script_checks
      ("<FID>1</FID><INTU.BID>1</INTU.BID><TRNAMT>1.0</TRNAMT><TRNAMT>1.0</TRNAMT><TRNAMT>1.0</TRNAMT><TRNAMT>1.0</TRNAMT><TRNAMT>1.0</TRNAMT><TRNAMT>1.0</TRNAMT>".toList)
      ("<FID>2</FID><INTU.BID>2</INTU.BID><TRNAMT>-1.0</TRNAMT><TRNAMT>-1.0</TRNAMT><TRNAMT>-1.0</TRNAMT><TRNAMT>-1.0</TRNAMT><TRNAMT>-1.0</TRNAMT><TRNAMT>1.0</TRNAMT>".toList)
      = some (true, true, true, true) ∧
    verify_script
      ("<FID>1</FID><INTU.BID>1</INTU.BID><TRNAMT>1.0</TRNAMT><TRNAMT>1.0</TRNAMT><TRNAMT>1.0</TRNAMT><TRNAMT>1.0</TRNAMT><TRNAMT>1.0</TRNAMT><TRNAMT>1.0</TRNAMT>".toList)
      ("<FID>2</FID><INTU.BID>2</INTU.BID><TRNAMT>-1.0</TRNAMT><TRNAMT>-1.0</TRNAMT><TRNAMT>-1.0</TRNAMT><TRNAMT>-1.0</TRNAMT><TRNAMT>-1.0</TRNAMT><TRNAMT>1.0</TRNAMT>".toList)
      = some true ∧
    extract_key_elements
      ("<FID>1</FID><INTU.BID>1</INTU.BID><TRNAMT>1.0</TRNAMT><TRNAMT>1.0</TRNAMT><TRNAMT>1.0</TRNAMT><TRNAMT>1.0</TRNAMT><TRNAMT>1.0</TRNAMT><TRNAMT>1.0</TRNAMT>".toList) =
      some ⟨"1".toList, "1".toList,
        [⟨false, 10, -1⟩, ⟨false, 10, -1⟩, ⟨false, 10, -1⟩, ⟨false, 10, -1⟩,
          ⟨false, 10, -1⟩, ⟨false, 10, -1⟩], 0⟩ ∧
    extract_key_elements
      ("<FID>2</FID><INTU.BID>2</INTU.BID><TRNAMT>-1.0</TRNAMT><TRNAMT>-1.0</TRNAMT><TRNAMT>-1.0</TRNAMT><TRNAMT>-1.0</TRNAMT><TRNAMT>-1.0</TRNAMT><TRNAMT>1.0</TRNAMT>".toList) =
      some ⟨"2".toList, "2".toList,
        [⟨true, 10, -1⟩, ⟨true, 10, -1⟩, ⟨true, 10, -1⟩, ⟨true, 10, -1⟩,
          ⟨true, 10, -1⟩, ⟨false, 10, -1⟩], 0⟩ ∧
    ([⟨false, 10, -1⟩, ⟨false, 10, -1⟩, ⟨false, 10, -1⟩, ⟨false, 10, -1⟩,
        ⟨false, 10, -1⟩, ⟨false, 10, -1⟩] : List PyFloat).get? 5 = some ⟨false, 10, -1⟩ ∧
    ([⟨true, 10, -1⟩, ⟨true, 10, -1⟩, ⟨true, 10, -1⟩, ⟨true, 10, -1⟩,
        ⟨true, 10, -1⟩, ⟨false, 10, -1⟩] : List PyFloat).get? 5 = some ⟨false, 10, -1⟩ ∧
    1 / 100 < |(⟨false, 10, -1⟩ : PyFloat).val + (⟨false, 10, -1⟩ : PyFloat).val| := by
  have hsc : script_checks
      ("<FID>1</FID><INTU.BID>1</INTU.BID><TRNAMT>1.0</TRNAMT><TRNAMT>1.0</TRNAMT><TRNAMT>1.0</TRNAMT><TRNAMT>1.0</TRNAMT><TRNAMT>1.0</TRNAMT><TRNAMT>1.0</TRNAMT>".toList)
      ("<FID>2</FID><INTU.BID>2</INTU.BID><TRNAMT>-1.0</TRNAMT><TRNAMT>-1.0</TRNAMT><TRNAMT>-1.0</TRNAMT><TRNAMT>-1.0</TRNAMT><TRNAMT>-1.0</TRNAMT><TRNAMT>1.0</TRNAMT>".toList)
      = some (true, true, true, true) := by
    rw [script_checks,
      show extract_key_elements
        ("<FID>1</FID><INTU.BID>1</INTU.BID><TRNAMT>1.0</TRNAMT><TRNAMT>1.0</TRNAMT><TRNAMT>1.0</TRNAMT><TRNAMT>1.0</TRNAMT><TRNAMT>1.0</TRNAMT><TRNAMT>1.0</TRNAMT>".toList) =
        some ⟨"1".toList, "1".toList,
          [⟨false, 10, -1⟩, ⟨false, 10, -1⟩, ⟨false, 10, -1⟩, ⟨false, 10, -1⟩,
            ⟨false, 10, -1⟩, ⟨false, 10, -1⟩], 0⟩ from by decide,
      show extract_key_elements
        ("<FID>2</FID><INTU.BID>2</INTU.BID><TRNAMT>-1.0</TRNAMT><TRNAMT>-1.0</TRNAMT><TRNAMT>-1.0</TRNAMT><TRNAMT>-1.0</TRNAMT><TRNAMT>-1.0</TRNAMT><TRNAMT>1.0</TRNAMT>".toList) =
        some ⟨"2".toList, "2".toList,
          [⟨true, 10, -1⟩, ⟨true, 10, -1⟩, ⟨true, 10, -1⟩, ⟨true, 10, -1⟩,
            ⟨true, 10, -1⟩, ⟨false, 10, -1⟩], 0⟩ from by decide]
    simp only [Option.some.injEq, Prod.mk.injEq]
    refine ⟨by decide, by decide, by decide, ?_⟩
    rw [show (([⟨false, 10, -1⟩, ⟨false, 10, -1⟩, ⟨false, 10, -1⟩, ⟨false, 10, -1⟩,
          ⟨false, 10, -1⟩, ⟨false, 10, -1⟩] : List PyFloat).take 5).zip
        (([⟨true, 10, -1⟩, ⟨true, 10, -1⟩, ⟨true, 10, -1⟩, ⟨true, 10, -1⟩,
          ⟨true, 10, -1⟩, ⟨false, 10, -1⟩] : List PyFloat).take 5) =
        [(⟨false, 10, -1⟩, ⟨true, 10, -1⟩), (⟨false, 10, -1⟩, ⟨true, 10, -1⟩),
          (⟨false, 10, -1⟩, ⟨true, 10, -1⟩), (⟨false, 10, -1⟩, ⟨true, 10, -1⟩),
          (⟨false, 10, -1⟩, ⟨true, 10, -1⟩)] from by decide]
    simp only [List.all_cons, List.all_nil, Bool.and_true, Bool.and_eq_true,
      decide_eq_true_eq]
    norm_num [PyFloat.val, pow10]
  refine ⟨hsc, ?_, by decide, by decide, by decide, by decide,
    by norm_num [PyFloat.val, pow10]⟩
  rw [verify_script, hsc]
  rfl

/-- Claim C1, amended: both verifiers compute overall success as the
conjunction of the same four checks — FID differs, INTU.BID differs,
transaction counts equal, and a sign check over index-paired amounts with
tolerance `0.01`.  In `qfx_converter.verify_conversion` the sign check is
elementwise over every position present in both amount sequences (the
shorter one; vacuous when either sequence is empty), but in the standalone
`verify_conversion.py` script the amount lists are sliced to their first
five elements before the loop, so its sign check covers only positions
`i < 5` and a violation at any later position is not detected. -/
theorem claim_C1 (o c : List Char) (oe ce : KeyElements) (b bs : Bool)
    (ho : extract_key_elements o = some oe) (hc : extract_key_elements c = some ce)
    (hv : verify_conversion o c = some b) (hs : verify_script o c = some bs) :
    (b = true ↔ (oe.fid ≠ ce.fid ∧ oe.intuBid ≠ ce.intuBid ∧
      oe.transaction_count = ce.transaction_count ∧
      ∀ (i : ℕ) (x y : PyFloat), oe.amounts.get? i = some x → ce.amounts.get? i = some y →
        |x.val + y.val| ≤ 1 / 100)) ∧
    (bs = true ↔ (oe.fid ≠ ce.fid ∧ oe.intuBid ≠ ce.intuBid ∧
      oe.transaction_count = ce.transaction_count ∧
      ∀ (i : ℕ) (x y : PyFloat), i < 5 → oe.amounts.get? i = some x →
        ce.amounts.get? i = some y → |x.val + y.val| ≤ 1 / 100)) := by
  constructor
  · rw [verify_conversion, verification_checks, ho, hc] at hv
    simp only [Option.map_some', Option.some.injEq] at hv
    subst hv
    simp only [Bool.and_eq_true, decide_eq_true_eq]
    constructor
    · rintro ⟨⟨⟨h1, h2⟩, h3⟩, h4⟩
      refine ⟨h1, h2, h3, ?_⟩
      intro i x y hx hy
      split at h4
      · exact decide_eq_true_eq.mp ((zip_all_iff _ _ _).mp h4 i x y hx hy)
      · exfalso
        rename_i hne
        rcases not_and_or.mp hne with h | h
        · have he : oe.amounts = [] := by
            revert h; cases hl : oe.amounts <;> simp
          rw [he] at hx; simp at hx
        · have he : ce.amounts = [] := by
            revert h; cases hl : ce.amounts <;> simp
          rw [he] at hy; simp at hy
    · rintro ⟨h1, h2, h3, h4⟩
      refine ⟨⟨⟨h1, h2⟩, h3⟩, ?_⟩
      split
      · exact (zip_all_iff _ _ _).mpr fun i x y hx hy => decide_eq_true (h4 i x y hx hy)
      · rfl
  · rw [verify_script, script_checks, ho, hc] at hs
    simp only [Option.map_some', Option.some.injEq] at hs
    subst hs
    simp only [Bool.and_eq_true, decide_eq_true_eq]
    constructor
    · rintro ⟨⟨⟨h1, h2⟩, h3⟩, h4⟩
      refine ⟨h1, h2, h3, ?_⟩
      intro i x y hi hx hy
      exact decide_eq_true_eq.mp ((zip_all_iff _ _ _).mp h4 i x y
        ((get_take_iff x oe.amounts 5 i).mpr ⟨hi, hx⟩)
        ((get_take_iff y ce.amounts 5 i).mpr ⟨hi, hy⟩))
    · rintro ⟨h1, h2, h3, h4⟩
      refine ⟨⟨⟨h1, h2⟩, h3⟩, ?_⟩
      refine (zip_all_iff _ _ _).mpr fun i x y hx hy => ?_
      obtain ⟨hi, hx2⟩ := (get_take_iff x oe.amounts 5 i).mp hx
      obtain ⟨-, hy2⟩ := (get_take_iff y ce.amounts 5 i).mp hy
      exact decide_eq_true (h4 i x y hi hx2 hy2)

/-- Witness for C1 (amended form) at a concrete original/converted pair on
which all four checks of both verifiers pass. -/
theorem claim_C1_witness :
    verify_conversion
      ("<FID>12139</FID><INTU.BID>12139</INTU.BID><STMTTRN><TRNAMT>5.25</TRNAMT>".toList)
      ("<FID>10898</FID><INTU.BID>10898</INTU.BID><STMTTRN><TRNAMT>-5.25</TRNAMT>".toList)
      = some true ∧
    verify_script
      ("<FID>12139</FID><INTU.BID>12139</INTU.BID><STMTTRN><TRNAMT>5.25</TRNAMT>".toList)
      ("<FID>10898</FID><INTU.BID>10898</INTU.BID><STMTTRN><TRNAMT>-5.25</TRNAMT>".toList)
      = some true ∧
    ((true = true ↔ (("12139".toList) ≠ ("10898".toList) ∧
      ("12139".toList) ≠ ("10898".toList) ∧ (1 : ℕ) = 1 ∧
      ∀ (i : ℕ) (x y : PyFloat),
        ([(⟨false, 525, -2⟩ : PyFloat)] : List PyFloat).get? i = some x →
        ([(⟨true, 525, -2⟩ : PyFloat)] : List PyFloat).get? i = some y →
        |x.val + y.val| ≤ 1 / 100)) ∧
     (true = true ↔ (("12139".toList) ≠ ("10898".toList) ∧
      ("12139".toList) ≠ ("10898".toList) ∧ (1 : ℕ) = 1 ∧
      ∀ (i : ℕ) (x y : PyFloat), i < 5 →
        ([(⟨false, 525, -2⟩ : PyFloat)] : List PyFloat).get? i = some x →
        ([(⟨true, 525, -2⟩ : PyFloat)] : List PyFloat).get? i = some y →
        |x.val + y.val| ≤ 1 / 100))) := by
  have hsign : |(⟨false, 525, -2⟩ : PyFloat).val + (⟨true, 525, -2⟩ : PyFloat).val| ≤ 1 / 100 := by
    norm_num [PyFloat.val, pow10]
  have hv : verify_conversion
      ("<FID>12139</FID><INTU.BID>12139</INTU.BID><STMTTRN><TRNAMT>5.25</TRNAMT>".toList)
      ("<FID>10898</FID><INTU.BID>10898</INTU.BID><STMTTRN><TRNAMT>-5.25</TRNAMT>".toList)
      = some true := by
    rw [verify_conversion, verification_checks,
      show extract_key_elements
        ("<FID>12139</FID><INTU.BID>12139</INTU.BID><STMTTRN><TRNAMT>5.25</TRNAMT>".toList) =
        some ⟨"12139".toList, "12139".toList, [⟨false, 525, -2⟩], 1⟩ from by decide,
      show extract_key_elements
        ("<FID>10898</FID><INTU.BID>10898</INTU.BID><STMTTRN><TRNAMT>-5.25</TRNAMT>".toList) =
        some ⟨"10898".toList, "10898".toList, [⟨true, 525, -2⟩], 1⟩ from by decide]
    simp only [Option.map_some', Option.some.injEq]
    simpa using hsign
  have hs : verify_script
      ("<FID>12139</FID><INTU.BID>12139</INTU.BID><STMTTRN><TRNAMT>5.25</TRNAMT>".toList)
      ("<FID>10898</FID><INTU.BID>10898</INTU.BID><STMTTRN><TRNAMT>-5.25</TRNAMT>".toList)
      = some true := by
    rw [verify_script, script_checks,
      show extract_key_elements
        ("<FID>12139</FID><INTU.BID>12139</INTU.BID><STMTTRN><TRNAMT>5.25</TRNAMT>".toList) =
        some ⟨"12139".toList, "12139".toList, [⟨false, 525, -2⟩], 1⟩ from by decide,
      show extract_key_elements
        ("<FID>10898</FID><INTU.BID>10898</INTU.BID><STMTTRN><TRNAMT>-5.25</TRNAMT>".toList) =
        some ⟨"10898".toList, "10898".toList, [⟨true, 525, -2⟩], 1⟩ from by decide]
    simp only [Option.map_some', Option.some.injEq]
    rw [show (([(⟨false, 525, -2⟩ : PyFloat)] : List PyFloat).take 5).zip
        (([(⟨true, 525, -2⟩ : PyFloat)] : List PyFloat).take 5) =
        [((⟨false, 525, -2⟩ : PyFloat), (⟨true, 525, -2⟩ : PyFloat))] from by decide]
    simp only [List.all_cons, List.all_nil, Bool.and_true]
    simpa using hsign
  exact ⟨hv, hs, claim_C1 _ _ ⟨"12139".toList, "12139".toList, [⟨false, 525, -2⟩], 1⟩
    ⟨"10898".toList, "10898".toList, [⟨true, 525, -2⟩], 1⟩ true true
    (by decide) (by decide) hv hs⟩

theorem all_decide (P : PyFloat → Prop) [DecidablePred P] (l : List PyFloat) :
    (l.all fun a => decide (P a)) = decide (∀ x ∈ l, P x) := by
  induction l with
  | nil => simp
  | cons a l ih => by_cases h : P a <;> simp [h, ih]

/-- Claim C6 fails on the code: comparing a document holding the amount
`5.0` with itself, `verify_conversion` computes the four checks as
`(false, false, true, false)` — the sign-reversal check is reported as
failed, not passed, because `5.0 + 5.0` exceeds the tolerance.  The claim
predicted `(false, false, true, true)` regardless of amounts. -/
theorem claim_C6_counterexample :
    extract_key_elements ("<FID>12139</FID><STMTTRN><TRNAMT>5.0</TRNAMT>".toList) =
      some ⟨"12139".toList, "Not found".toList, [⟨false, 50, -1⟩], 1⟩ ∧
    verification_checks ("<FID>12139</FID><STMTTRN><TRNAMT>5.0</TRNAMT>".toList)
      ("<FID>12139</FID><STMTTRN><TRNAMT>5.0</TRNAMT>".toList) =
      some (false, false, true, false) := by
  refine ⟨by decide, ?_⟩
  rw [verification_checks,
    show extract_key_elements ("<FID>12139</FID><STMTTRN><TRNAMT>5.0</TRNAMT>".toList) =
      some ⟨"12139".toList, "Not found".toList, [⟨false, 50, -1⟩], 1⟩ from by decide]
  simp only [Option.some.injEq, Prod.mk.injEq]
  refine ⟨by simp, by simp, by simp, ?_⟩
  simp only [List.isEmpty_cons, Bool.not_false, Bool.and_self, if_true, List.zip_cons_cons,
    List.zip_nil_right, List.all_cons, List.all_nil, Bool.and_true, decide_eq_false_iff_not,
    not_le]
  norm_num [PyFloat.val, pow10]

/-- Claim C6, amended: for every document on which extraction succeeds,
comparing it with itself reports both institution-ID checks as failed and
the transaction-count check as passed, but the sign-reversal check passes
only when every amount `x` of the document satisfies `|x + x| ≤ 0.01`
(vacuously so when the document has no amounts) — not regardless of the
amounts the document contains. -/
theorem claim_C6 (s : List Char) (es : KeyElements)
    (h : extract_key_elements s = some es) :
    verification_checks s s = some (false, false, true,
      decide (∀ x ∈ es.amounts, |x.val + x.val| ≤ 1 / 100)) := by
  rw [verification_checks, h]
  simp only [Option.some.injEq, Prod.mk.injEq]
  refine ⟨by simp, by simp, by simp, ?_⟩
  cases hl : es.amounts with
  | nil => simp
  | cons a l =>
    rw [if_pos (by simp)]
    rw [zip_self_all, all_decide]

/-- Witness for C6 (amended form) at a concrete document without amounts:
the sign-reversal check passes vacuously. -/
theorem claim_C6_witness :
    verification_checks ("<STMTTRN>z".toList) ("<STMTTRN>z".toList) =
      some (false, false, true, true) := by
  have h := claim_C6 ("<STMTTRN>z".toList)
    ⟨"Not found".toList, "Not found".toList, [], 1⟩ (by decide)
  simpa using h

/-- Claim C10: `convert_qfx` is the identity on documents with nothing to
rewrite: if the document contains no run `<FID>12139</FID>`, no run
`<INTU.BID>12139</INTU.BID>`, and no amount-field occurrence
(`<TRNAMT>text</TRNAMT>`), then conversion succeeds and returns the
document unchanged, byte for byte. -/
theorem claim_C10 (s : List Char)
    (h1 : hasRun ("<FID>12139</FID>".toList) s = false)
    (h2 : hasRun ("<INTU.BID>12139</INTU.BID>".toList) s = false)
    (h3 : findAmts s = []) :
    convert_qfx s = some s := by
  simp only [convert_qfx, subLit, subAmt]
  rw [subLitGo_id _ _ s.length s le_rfl h1]
  rw [subLitGo_id _ _ s.length s le_rfl h2]
  exact subAmtGo_id s.length s le_rfl h3

/-- Witness for C10 at a concrete document that has an institution-ID field
holding a value other than 12139 and an unclosed amount tag. -/
theorem claim_C10_witness :
    hasRun ("<FID>12139</FID>".toList) ("abc<FID>99</FID><TRNAMT>x".toList) = false ∧
    hasRun ("<INTU.BID>12139</INTU.BID>".toList) ("abc<FID>99</FID><TRNAMT>x".toList) = false ∧
    findAmts ("abc<FID>99</FID><TRNAMT>x".toList) = [] ∧
    convert_qfx ("abc<FID>99</FID><TRNAMT>x".toList) =
      some ("abc<FID>99</FID><TRNAMT>x".toList) :=
  ⟨by decide, by decide, by decide, claim_C10 _ (by decide) (by decide) (by decide)⟩

/-- Claim C9: the amount rewrite re-serialises the parsed value with the
default float rendering, not the original digit string.  Any amount text
parsing to plus zero (such as `0.00`) is rewritten to the field text
`-0.0` (negative zero); any text parsing to minus zero (such as `-0.00`)
becomes `0.0`; and trailing zeros of the original text are not preserved:
`-42.50` becomes `42.5`. -/
theorem claim_C9 :
    (∀ (c : List Char) (x : PyFloat), pyParse c = some x → x.val = 0 → x.neg = false →
       reverse_amount c = some ("<TRNAMT>-0.0</TRNAMT>".toList)) ∧
    (∀ (c : List Char) (x : PyFloat), pyParse c = some x → x.val = 0 → x.neg = true →
       reverse_amount c = some ("<TRNAMT>0.0</TRNAMT>".toList)) ∧
    reverse_amount ("0.00".toList) = some ("<TRNAMT>-0.0</TRNAMT>".toList) ∧
    reverse_amount ("-0.00".toList) = some ("<TRNAMT>0.0</TRNAMT>".toList) ∧
    reverse_amount ("-42.50".toList) = some ("<TRNAMT>42.5</TRNAMT>".toList) := by
  refine ⟨?_, ?_, by decide, by decide, by decide⟩
  · intro c x hp hv hn
    obtain ⟨b, m, e⟩ := x
    have hm : m = 0 := (PyFloat.val_eq_zero_iff _).mp hv
    cases hn
    subst hm
    rw [reverse_amount, hp]
    simp [pyNeg, pyRepr_zero]
  · intro c x hp hv hn
    obtain ⟨b, m, e⟩ := x
    have hm : m = 0 := (PyFloat.val_eq_zero_iff _).mp hv
    cases hn
    subst hm
    rw [reverse_amount, hp]
    simp [pyNeg, pyRepr_zero]

/-- Witness for C9: concrete amount texts parsing to plus and minus zero. -/
theorem claim_C9_witness :
    reverse_amount ("0.000".toList) = some ("<TRNAMT>-0.0</TRNAMT>".toList) ∧
    reverse_amount ("-0e5".toList) = some ("<TRNAMT>0.0</TRNAMT>".toList) :=
  ⟨claim_C9.1 _ ⟨false, 0, -3⟩ (by decide) (by norm_num [PyFloat.val]) rfl,
   claim_C9.2.1 _ ⟨true, 0, 5⟩ (by decide) (by norm_num [PyFloat.val]) rfl⟩

/-- Claim C8: if any amount field's enclosed text does not parse as a
decimal number, extraction fails as a whole (returns `none`, the model of
the raised `ValueError`), producing no partial results; otherwise the
extracted amount sequence has one entry per amount-field occurrence, in
document order, each the parsed value of the corresponding text. -/
theorem claim_C8 (s : List Char) :
    (extract_key_elements s = none ↔ ∃ c ∈ findAmts s, pyParse c = none) ∧
    (∀ es : KeyElements, extract_key_elements s = some es →
      es.amounts.length = (findAmts s).length ∧
      ∀ (i : ℕ) (c : List Char), (findAmts s).get? i = some c →
        ∃ x, pyParse c = some x ∧ es.amounts.get? i = some x) := by
  simp only [extract_key_elements]
  cases hp : parseAll (findAmts s) with
  | none =>
    refine ⟨?_, ?_⟩
    · simpa using (parseAll_none_iff (findAmts s)).mp hp
    · intro es h; cases h
  | some r =>
    refine ⟨?_, ?_⟩
    · simp only [reduceCtorEq, false_iff]
      intro hex
      exact absurd hp (by rw [(parseAll_none_iff (findAmts s)).mpr hex]; simp)
    · intro es h
      simp only [Option.some.injEq] at h
      subst h
      exact parseAll_some_get (findAmts s) r hp

/-- Witness for C8: extraction fails whole on a document with an
unparseable amount, and on a good document the amount list is in
one-to-one correspondence with the amount fields. -/
theorem claim_C8_witness :
    extract_key_elements ("<TRNAMT>x5</TRNAMT>".toList) = none ∧
    ([(⟨false, 50, -1⟩ : PyFloat)] : List PyFloat).length =
      (findAmts ("<TRNAMT>5.0</TRNAMT>".toList)).length :=
  ⟨(claim_C8 _).1.mpr (by decide),
   ((claim_C8 _).2 ⟨"Not found".toList, "Not found".toList, [⟨false, 50, -1⟩], 0⟩
     (by decide)).1⟩

/-- Claim C5 fails on the code: the document
`<DTSTART>20240101</DTSTART><DTEND>20240131</DTEND>` contains both a
start-of-statement and an end-of-statement timestamp field of the shape
the claim describes (8-digit date, optional suffix), yet date-range
extraction fails, because the code's pattern demands at least one digit
after the 8-digit date.  Hence "fails if and only if either field is
absent" is false. -/
theorem claim_C5_counterexample :
    ¬ (∀ s : List Char, extract_date_range s = none ↔
        ¬ (specTsSome ("<DTSTART>".toList) ("</DTSTART>".toList) s = true ∧
           specTsSome ("<DTEND>".toList) ("</DTEND>".toList) s = true)) := by
  intro h
  exact (h ("<DTSTART>20240101</DTSTART><DTEND>20240131</DTEND>".toList)).mp
    (by decide) ⟨by decide, by decide⟩

/-- Claim C5, amended: date-range extraction fails exactly when either tag
has no occurrence matching the code's timestamp shape — an 8-digit date
followed by at least one further digit and an optional fraction before the
close tag (so a bare 8-digit `DTSTART` date also fails, although the field
is present); on success it returns the 8-digit date prefixes of the first
such `DTSTART` match and the first such `DTEND` match. -/
theorem claim_C5 (s : List Char) :
    (extract_date_range s = none ↔
      ¬ ((∃ i, dtHere ("<DTSTART>".toList) ("</DTSTART>".toList) (s.drop i) ≠ none) ∧
         (∃ i, dtHere ("<DTEND>".toList) ("</DTEND>".toList) (s.drop i) ≠ none))) ∧
    (∀ a b : List Char, extract_date_range s = some (a, b) →
      (∃ i, dtHere ("<DTSTART>".toList) ("</DTSTART>".toList) (s.drop i) = some a ∧
        ∀ j < i, dtHere ("<DTSTART>".toList) ("</DTSTART>".toList) (s.drop j) = none) ∧
      (∃ i, dtHere ("<DTEND>".toList) ("</DTEND>".toList) (s.drop i) = some b ∧
        ∀ j < i, dtHere ("<DTEND>".toList) ("</DTEND>".toList) (s.drop j) = none)) := by
  have hnil1 : dtHere ("<DTSTART>".toList) ("</DTSTART>".toList) ([] : List Char) = none := by
    decide
  have hnil2 : dtHere ("<DTEND>".toList) ("</DTEND>".toList) ([] : List Char) = none := by
    decide
  constructor
  · rw [extract_date_range]
    cases h1 : searchDt ("<DTSTART>".toList) ("</DTSTART>".toList) s with
    | none =>
      rw [searchDt] at h1
      have := (scanFirst_none_iff _ hnil1 s.length s le_rfl).mp h1
      cases h2 : searchDt ("<DTEND>".toList) ("</DTEND>".toList) s <;>
        · simp only [true_iff]
          rintro ⟨⟨i, hi⟩, _⟩
          exact hi (this i)
    | some a =>
      cases h2 : searchDt ("<DTEND>".toList) ("</DTEND>".toList) s with
      | none =>
        rw [searchDt] at h2
        have := (scanFirst_none_iff _ hnil2 s.length s le_rfl).mp h2
        simp only [true_iff]
        rintro ⟨_, ⟨i, hi⟩⟩
        exact hi (this i)
      | some b =>
        simp only [reduceCtorEq, false_iff, not_not]
        rw [searchDt] at h1 h2
        obtain ⟨i, hi, -⟩ := (scanFirst_some_iff _ hnil1 s.length s le_rfl a).mp h1
        obtain ⟨k, hk, -⟩ := (scanFirst_some_iff _ hnil2 s.length s le_rfl b).mp h2
        exact ⟨⟨i, by rw [hi]; simp⟩, ⟨k, by rw [hk]; simp⟩⟩
  · intro a b hab
    rw [extract_date_range] at hab
    cases h1 : searchDt ("<DTSTART>".toList) ("</DTSTART>".toList) s with
    | none => rw [h1] at hab; cases hab
    | some a2 =>
      cases h2 : searchDt ("<DTEND>".toList) ("</DTEND>".toList) s with
      | none => rw [h1, h2] at hab; cases hab
      | some b2 =>
        rw [h1, h2] at hab
        simp only [Option.some.injEq, Prod.mk.injEq] at hab
        obtain ⟨rfl, rfl⟩ := hab
        rw [searchDt] at h1 h2
        exact ⟨(scanFirst_some_iff _ hnil1 s.length s le_rfl a2).mp h1,
               (scanFirst_some_iff _ hnil2 s.length s le_rfl b2).mp h2⟩

/-- Witness for C5 (amended form): on a well-formed document the first
timestamp matches are at concrete positions with the expected 8-digit
prefixes. -/
theorem claim_C5_witness :
    ∃ i, dtHere ("<DTSTART>".toList) ("</DTSTART>".toList)
        (("<DTSTART>20240101000000</DTSTART><DTEND>20240131000000</DTEND>".toList).drop i) =
        some ("20240101".toList) ∧
      ∀ j < i, dtHere ("<DTSTART>".toList) ("</DTSTART>".toList)
        (("<DTSTART>20240101000000</DTSTART><DTEND>20240131000000</DTEND>".toList).drop j) =
        none :=
  (((claim_C5 _).2 ("20240101".toList) ("20240131".toList)) (by decide)).1

/-- Claim C3: for every document on which conversion succeeds and whose
amount list is non-empty, the amounts extracted from the converted document
are, position by position, exactly the negations of the amounts extracted
from the original (same length, and equal rational values after negation —
in particular within any floating tolerance). -/
theorem claim_C3 (s t : List Char) (es et : KeyElements)
    (h1 : convert_qfx s = some t)
    (h2 : extract_key_elements s = some es)
    (h3 : extract_key_elements t = some et)
    (hne : es.amounts ≠ []) :
    et.amounts.length = es.amounts.length ∧
      et.amounts.map PyFloat.val = es.amounts.map (fun x => -(x.val)) := by
  obtain ⟨h0, segs, hh, hok, rfl⟩ := split_exists s
  rw [convert_qfx_seg h0 segs hh hok] at h1
  obtain ⟨t2, ht2, rfl⟩ := Option.map_eq_some'.mp h1
  have hokt : segsOk t2 := convSegs_ok segs t2 hok ht2
  have hfa_s := extract_amounts _ _ h2
  rw [findAmts_split h0 segs hh hok] at hfa_s
  obtain ⟨xs, hxs, hmap⟩ := amtContents_convSegs segs t2 ht2
  rw [hxs, Option.some.injEq] at hfa_s
  subst hfa_s
  have hfa_t := extract_amounts _ _ h3
  rw [findAmts_split h0 t2 hh hokt, hmap] at hfa_t
  obtain ⟨ys, hys, hlen, hval⟩ := parseAll_map_repr es.amounts
  rw [hys, Option.some.injEq] at hfa_t
  subst hfa_t
  exact ⟨hlen, hval⟩

/-- Witness for C3 at a concrete one-amount document. -/
theorem claim_C3_witness :
    convert_qfx ("<TRNAMT>2.5</TRNAMT>".toList) = some ("<TRNAMT>-2.5</TRNAMT>".toList) ∧
    extract_key_elements ("<TRNAMT>2.5</TRNAMT>".toList) =
      some ⟨"Not found".toList, "Not found".toList, [⟨false, 25, -1⟩], 0⟩ ∧
    extract_key_elements ("<TRNAMT>-2.5</TRNAMT>".toList) =
      some ⟨"Not found".toList, "Not found".toList, [⟨true, 25, -1⟩], 0⟩ ∧
    ([(⟨true, 25, -1⟩ : PyFloat)].length = [(⟨false, 25, -1⟩ : PyFloat)].length ∧
      [(⟨true, 25, -1⟩ : PyFloat)].map PyFloat.val =
        [(⟨false, 25, -1⟩ : PyFloat)].map (fun x => -(x.val))) :=
  ⟨by decide, by decide, by decide,
    claim_C3 ("<TRNAMT>2.5</TRNAMT>".toList) ("<TRNAMT>-2.5</TRNAMT>".toList)
      ⟨"Not found".toList, "Not found".toList, [⟨false, 25, -1⟩], 0⟩
      ⟨"Not found".toList, "Not found".toList, [⟨true, 25, -1⟩], 0⟩
      (by decide) (by decide) (by decide) (by decide)⟩

/-- Claim C4: for every document on which conversion succeeds, the
`<STMTTRN>` transaction count extracted from the converted document equals
the count extracted from the original. -/
theorem claim_C4 (s t : List Char) (es et : KeyElements)
    (h1 : convert_qfx s = some t)
    (h2 : extract_key_elements s = some es)
    (h3 : extract_key_elements t = some et) :
    et.transaction_count = es.transaction_count := by
  obtain ⟨h0, segs, hh, hok, rfl⟩ := split_exists s
  rw [convert_qfx_seg h0 segs hh hok] at h1
  obtain ⟨t2, ht2, rfl⟩ := Option.map_eq_some'.mp h1
  have hokt : segsOk t2 := convSegs_ok segs t2 hok ht2
  rw [extract_count _ _ h2, extract_count _ _ h3,
    show ("<STMTTRN>".toList : List Char) = '<' :: stA by decide,
    countLit_split stA (by decide) h0 segs hh hok,
    countLit_split stA (by decide) h0 t2 hh hokt]
  exact countSegs_convSegs segs t2 ht2

/-- Witness for C4 at a concrete document with one transaction record. -/
theorem claim_C4_witness :
    convert_qfx ("<STMTTRN><TRNAMT>3.5</TRNAMT>".toList) =
      some ("<STMTTRN><TRNAMT>-3.5</TRNAMT>".toList) ∧
    extract_key_elements ("<STMTTRN><TRNAMT>3.5</TRNAMT>".toList) =
      some ⟨"Not found".toList, "Not found".toList, [⟨false, 35, -1⟩], 1⟩ ∧
    extract_key_elements ("<STMTTRN><TRNAMT>-3.5</TRNAMT>".toList) =
      some ⟨"Not found".toList, "Not found".toList, [⟨true, 35, -1⟩], 1⟩ ∧
    (⟨"Not found".toList, "Not found".toList, [⟨true, 35, -1⟩], 1⟩ :
        KeyElements).transaction_count =
      (⟨"Not found".toList, "Not found".toList, [⟨false, 35, -1⟩], 1⟩ :
        KeyElements).transaction_count :=
  ⟨by decide, by decide, by decide,
    claim_C4 ("<STMTTRN><TRNAMT>3.5</TRNAMT>".toList)
      ("<STMTTRN><TRNAMT>-3.5</TRNAMT>".toList)
      ⟨"Not found".toList, "Not found".toList, [⟨false, 35, -1⟩], 1⟩
      ⟨"Not found".toList, "Not found".toList, [⟨true, 35, -1⟩], 1⟩
      (by decide) (by decide) (by decide)⟩

/-- Claim C7: converting twice restores the original amounts exactly —
the amounts extracted from the twice-converted document have exactly the
same values (hence compare equal as Python floats) as those extracted from
the original. -/
theorem claim_C7 (s t u : List Char) (es eu : KeyElements)
    (h1 : convert_qfx s = some t)
    (h2 : convert_qfx t = some u)
    (h3 : extract_key_elements s = some es)
    (h4 : extract_key_elements u = some eu) :
    eu.amounts.map PyFloat.val = es.amounts.map PyFloat.val := by
  obtain ⟨h0, segs, hh, hok, rfl⟩ := split_exists s
  rw [convert_qfx_seg h0 segs hh hok] at h1
  obtain ⟨t2, ht2, rfl⟩ := Option.map_eq_some'.mp h1
  have hok2 : segsOk t2 := convSegs_ok segs t2 hok ht2
  rw [convert_qfx_seg h0 t2 hh hok2] at h2
  obtain ⟨u2, hu2, rfl⟩ := Option.map_eq_some'.mp h2
  have hok3 : segsOk u2 := convSegs_ok t2 u2 hok2 hu2
  have hfa_s := extract_amounts _ _ h3
  rw [findAmts_split h0 segs hh hok] at hfa_s
  obtain ⟨xs, hxs, hmap⟩ := amtContents_convSegs segs t2 ht2
  rw [hxs, Option.some.injEq] at hfa_s
  subst hfa_s
  obtain ⟨xs2, hxs2, hmap2⟩ := amtContents_convSegs t2 u2 hu2
  obtain ⟨ys, hys, hylen, hyval⟩ := parseAll_map_repr es.amounts
  rw [hmap, hys, Option.some.injEq] at hxs2
  subst hxs2
  obtain ⟨zs, hzs, hzlen, hzval⟩ := parseAll_map_repr ys
  have hfa_u := extract_amounts _ _ h4
  rw [findAmts_split h0 u2 hh hok3, hmap2, hzs, Option.some.injEq] at hfa_u
  subst hfa_u
  rw [hzval]
  have h5 : ys.map (fun y => -(PyFloat.val y)) = (ys.map PyFloat.val).map (fun q => -q) := by
    rw [List.map_map]
    rfl
  rw [h5, hyval, List.map_map]
  exact List.map_congr_left (fun a _ => by simp)

/-- Witness for C7 at a concrete document whose amount round-trips through
two conversions. -/
theorem claim_C7_witness :
    convert_qfx ("<TRNAMT>-42.50</TRNAMT>".toList) = some ("<TRNAMT>42.5</TRNAMT>".toList) ∧
    convert_qfx ("<TRNAMT>42.5</TRNAMT>".toList) = some ("<TRNAMT>-42.5</TRNAMT>".toList) ∧
    extract_key_elements ("<TRNAMT>-42.50</TRNAMT>".toList) =
      some ⟨"Not found".toList, "Not found".toList, [⟨true, 4250, -2⟩], 0⟩ ∧
    extract_key_elements ("<TRNAMT>-42.5</TRNAMT>".toList) =
      some ⟨"Not found".toList, "Not found".toList, [⟨true, 425, -1⟩], 0⟩ ∧
    [(⟨true, 425, -1⟩ : PyFloat)].map PyFloat.val =
      [(⟨true, 4250, -2⟩ : PyFloat)].map PyFloat.val :=
  ⟨by decide, by decide, by decide, by decide,
    claim_C7 ("<TRNAMT>-42.50</TRNAMT>".toList) ("<TRNAMT>42.5</TRNAMT>".toList)
      ("<TRNAMT>-42.5</TRNAMT>".toList)
      ⟨"Not found".toList, "Not found".toList, [⟨true, 4250, -2⟩], 0⟩
      ⟨"Not found".toList, "Not found".toList, [⟨true, 425, -1⟩], 0⟩
      (by decide) (by decide) (by decide) (by decide)⟩

/-- Claim C2: whenever conversion succeeds, the output is the input copied
byte for byte outside disjoint rewritten spans, and every rewritten span is
one of the three matched field categories: the literal `<FID>12139</FID>`
field (rewritten to `<FID>10898</FID>`), the literal
`<INTU.BID>12139</INTU.BID>` field (rewritten to `<INTU.BID>10898</INTU.BID>`),
or a complete `<TRNAMT>...</TRNAMT>` amount field whose enclosed text is
rewritten to the serialisation of its negated value, the surrounding tags
carried verbatim.  In particular an institution field holding any other
value, and any text not enclosed in the three matched tag shapes, is
outside every span and is preserved unchanged. -/
theorem claim_C2 (s t : List Char) (h : convert_qfx s = some t) : Frame s t := by
  obtain ⟨h0, segs, hh, hok, rfl⟩ := split_exists s
  rw [convert_qfx_seg h0 segs hh hok] at h
  obtain ⟨t2, ht2, rfl⟩ := Option.map_eq_some'.mp h
  exact frame_append_left h0 _ _ (frame_untok segs.length segs t2 le_rfl hok ht2)

/-- Witness for C2 at a concrete document holding a matched FID field and
one amount field. -/
theorem claim_C2_witness :
    convert_qfx ("x<FID>12139</FID><TRNAMT>1.5</TRNAMT>".toList) =
      some ("x<FID>10898</FID><TRNAMT>-1.5</TRNAMT>".toList) ∧
    Frame ("x<FID>12139</FID><TRNAMT>1.5</TRNAMT>".toList)
      ("x<FID>10898</FID><TRNAMT>-1.5</TRNAMT>".toList) :=
  ⟨by decide, claim_C2 ("x<FID>12139</FID><TRNAMT>1.5</TRNAMT>".toList)
    ("x<FID>10898</FID><TRNAMT>-1.5</TRNAMT>".toList) (by decide)⟩

end Qfx
